import Mathlib

/-!
# File-backed mailbox store (`pkg/storage/file/fstore.go`)

A shallow embedding of the file store of inbucket: the `Store` that resolves
addresses to sharded mailbox directories, the `Mailbox` handle with its lazily
loaded gob index, the directory life cycle and the message id generator.

Conventions of the embedding

* A path is the sequence of its clean components, so `filepath.Join` is
  concatenation and `filepath.Dir` drops the last component.  The empty
  sequence is the root of the tree (the empty string of the source).
* The file system is explicit state: every operation of the source that
  touches the disk takes an `FS` and returns the `FS` it leaves behind.
* `encoding/gob` is a parameter (`Gob`): an encoder and a decoder with their
  stream states.  What the theorems need from it is stated as `Gob.Lawful`.
* Locks (`indexMx`, `dirMx`, `hashLock`) and logging have no effect on the
  sequential behaviour and are left out.
-/

namespace FStore

/-! ## Paths and the file system -/

abbrev Byte := Fin 256

abbrev Path := List String

/-- Name of index file in each mailbox. -/
def indexFileName : String := "index.gob"

/-- What a path names: a regular file with its content, or a directory. -/
inductive Node where
  | file (data : List Byte)
  | dir
deriving DecidableEq, Repr

/-- The file system: every path that exists below the root, with what it names.
The root `[]` is not listed; it always exists and is a directory. -/
abbrev FS := List (Path × Node)

inductive Errno where
  | ENOENT
  | ENOTDIR
  | EISDIR
  | EEXIST
  | ENOTEMPTY
  | EINVAL
deriving DecidableEq, Repr

/-- Errors returned by the store. -/
inductive Error where
  /-- The value `storage.ErrNotExist`. -/
  | errNotExist
  /-- An error of `stringutil.ParseMailboxName`. -/
  | invalidAddress (msg : String)
  /-- An `*os.PathError`. -/
  | pathError (op : String) (path : Path) (errno : Errno)
  /-- The error `fmt.Errorf("Corrupt mailbox %q: %v", indexPath, err)`. -/
  | corruptMailbox (indexPath : Path) (cause : String)
  /-- An error of `gob.Encoder.Encode`. -/
  | encodeError (cause : String)
  /-- A run-time panic: slice bounds out of range. -/
  | sliceBounds
deriving DecidableEq, Repr

namespace FS

/-- Look a path up (`os.Stat` without the error). -/
def get (fs : FS) (p : Path) : Option Node :=
  match p with
  | [] => some Node.dir
  | _ :: _ =>
    match fs.find? (fun e => decide (e.1 = p)) with
    | some e => some e.2
    | none => none

/-- Names of the entries directly inside `p`. -/
def names (fs : FS) (p : Path) : List String :=
  (fs.map Prod.fst).filterMap (fun q =>
    match q.getLast? with
    | some n => if q.dropLast = p then some n else none
    | none => none)

/-- Drop the entry of `p` itself, keeping everything else. -/
def erase (fs : FS) (p : Path) : FS :=
  fs.filter (fun e => decide (e.1 ≠ p))

/-- Bind `p` to `n`, replacing what was there. -/
def put (fs : FS) (p : Path) (n : Node) : FS :=
  (p, n) :: fs.erase p

/-- Some proper ancestor of `p` is a regular file. -/
def fileAbove (fs : FS) (p : Path) : Bool :=
  (List.range p.length).any (fun k =>
    match fs.get (p.take k) with
    | some (Node.file _) => true
    | _ => false)

/-- Well-formed file systems: a path is listed once, the root is not listed,
and the parent of every listed path is a directory. -/
def WF (fs : FS) : Prop :=
  (fs.map Prod.fst).Nodup ∧
  ∀ e ∈ fs, e.1 ≠ [] ∧ fs.get e.1.dropLast = some Node.dir

end FS

/-! ## The `os` and `io/ioutil` calls used by the store -/

/-- The call `os.Stat(p)`. -/
def osStat (fs : FS) (p : Path) : Except Error Node :=
  match fs.get p with
  | some n => Except.ok n
  | none => Except.error (Error.pathError "stat" p Errno.ENOENT)

/-- The call `os.Mkdir(p, perm)`. -/
def osMkdir (fs : FS) (p : Path) : Except Error FS :=
  match fs.get p with
  | some _ => Except.error (Error.pathError "mkdir" p Errno.EEXIST)
  | none =>
    match fs.get p.dropLast with
    | some Node.dir => Except.ok (fs.put p Node.dir)
    | some (Node.file _) => Except.error (Error.pathError "mkdir" p Errno.ENOTDIR)
    | none => Except.error (Error.pathError "mkdir" p Errno.ENOENT)

/-- The recursion of `os.MkdirAll` on the reversed path: stop when the path
exists, otherwise make the parent first and then the directory itself. -/
def osMkdirAllRev (fs : FS) : List String → Except Error FS
  | [] => Except.ok fs
  | c :: up =>
    let p := (c :: up).reverse
    match fs.get p with
    | some Node.dir => Except.ok fs
    | some (Node.file _) => Except.error (Error.pathError "mkdir" p Errno.ENOTDIR)
    | none =>
      match osMkdirAllRev fs up with
      | Except.error e => Except.error e
      | Except.ok fs1 =>
        match osMkdir fs1 p with
        | Except.ok fs2 => Except.ok fs2
        | Except.error e =>
          match fs1.get p with
          | some Node.dir => Except.ok fs1
          | _ => Except.error e

/-- The call `os.MkdirAll(p, perm)`. -/
def osMkdirAll (fs : FS) (p : Path) : Except Error FS :=
  osMkdirAllRev fs p.reverse

/-- The call `os.Create(p)`: create or truncate the regular file `p`. -/
def osCreate (fs : FS) (p : Path) : Except Error FS :=
  match p with
  | [] => Except.error (Error.pathError "open" p Errno.EISDIR)
  | _ :: _ =>
    match fs.get p with
    | some Node.dir => Except.error (Error.pathError "open" p Errno.EISDIR)
    | _ =>
      match fs.get p.dropLast with
      | some Node.dir => Except.ok (fs.put p (Node.file []))
      | some (Node.file _) => Except.error (Error.pathError "open" p Errno.ENOTDIR)
      | none => Except.error (Error.pathError "open" p Errno.ENOENT)

/-- The call `os.RemoveAll(p)`: remove `p` and everything below it; a path that
does not exist is not an error, a regular file on the way to it is. -/
def osRemoveAll (fs : FS) (p : Path) : Except Error FS :=
  if fs.fileAbove p then
    Except.error (Error.pathError "unlinkat" p Errno.ENOTDIR)
  else
    Except.ok (fs.filter (fun e => !(p.isPrefixOf e.1)))

/-- The call `os.Remove(p)`: remove a file or an empty directory. -/
def osRemove (fs : FS) (p : Path) : Except Error FS :=
  match p with
  | [] => Except.error (Error.pathError "remove" p Errno.EINVAL)
  | _ :: _ =>
    match fs.get p with
    | none => Except.error (Error.pathError "remove" p Errno.ENOENT)
    | some (Node.file _) => Except.ok (fs.erase p)
    | some Node.dir =>
      if fs.names p = [] then Except.ok (fs.erase p)
      else Except.error (Error.pathError "remove" p Errno.ENOTEMPTY)

/-- The calls `os.Open(p)` and `f.Readdirnames(0)` on the result. -/
def readdirnames (fs : FS) (p : Path) : Except Error (List String) :=
  match fs.get p with
  | none => Except.error (Error.pathError "open" p Errno.ENOENT)
  | some (Node.file _) => Except.error (Error.pathError "readdirent" p Errno.ENOTDIR)
  | some Node.dir => Except.ok (fs.names p)

/-- An `os.FileInfo`, as far as the store looks at it. -/
structure FileInfo where
  Name : String
  IsDir : Bool
deriving DecidableEq, Repr

/-- The order `ioutil.ReadDir` sorts by: file name. -/
def FileInfo.byName (a b : FileInfo) : Prop := ¬ b.Name < a.Name

instance : DecidableRel FileInfo.byName := fun a b =>
  inferInstanceAs (Decidable (¬ b.Name < a.Name))

/-- The `FileInfo` of the entry `n` inside `p`. -/
def fileInfo (fs : FS) (p : Path) (n : String) : FileInfo :=
  { Name := n
    IsDir := match fs.get (p ++ [n]) with
      | some Node.dir => true
      | _ => false }

/-- The call `ioutil.ReadDir(p)`: the entries of the directory, sorted by name. -/
def ioutilReadDir (fs : FS) (p : Path) : Except Error (List FileInfo) :=
  match readdirnames fs p with
  | Except.error e => Except.error e
  | Except.ok ns => Except.ok (((ns.map (fileInfo fs p)).insertionSort FileInfo.byName))

/-! ## The data model -/

/-- A moment in time, broken down as `time.Time.Format` sees it. -/
structure Time where
  year : Nat
  month : Nat
  day : Nat
  hour : Nat
  minute : Nat
  second : Nat
deriving DecidableEq, Repr

/-- The data store configuration (`config.DataStoreConfig`). -/
structure DataStoreConfig where
  Path : Path
  MailboxMsgCap : Int
deriving DecidableEq, Repr

/-- Store is the root of the mail storage hierarchy. -/
structure Store where
  path : Path
  mailPath : Path
  messageCap : Int
deriving DecidableEq, Repr

/-- Modelled from the spec: the `Message` record of the store, declared in a
file of the package that is not part of the sources at hand.  It is a metadata
record (identifier, timestamp, envelope fields, size) plus a non-owning
back-reference to the mailbox it belongs to, kept here as that mailbox's path.
Only the fields with upper-case names are stored in the index. -/
structure Message where
  mailbox : Option Path
  Fid : String
  Fdate : Time
  Ffrom : String
  Fto : List String
  Fsubject : String
  Fsize : Int
deriving DecidableEq, Repr

/-- The record as the index stores it: without the back-reference. -/
def Message.stored (m : Message) : Message := { m with mailbox := none }

/-- Mailbox manages the mail for a specific user and correlates to a particular
directory on disk. -/
structure Mailbox where
  store : Store
  name : String
  dirName : String
  path : Path
  indexLoaded : Bool
  indexPath : Path
  messages : List Message
deriving DecidableEq, Repr

/-! ## `encoding/gob` -/

/-- A gob encoder and decoder over a byte stream.  Both sides carry a state
(the type descriptions already sent or seen).  `decode` is asked for the next
value of a stream that has bytes left; on success it reports the value, how
many bytes beyond the first the value took, and its next state. -/
structure Gob where
  EncState : Type
  DecState : Type
  newEncoder : EncState
  newDecoder : DecState
  encode : EncState → Message → Except String (List Byte × EncState)
  decode : DecState → List Byte → Except String (Message × Nat × DecState)

/-- What one call of `Decoder.Decode` can give. -/
inductive DecodeStep (σ : Type) where
  | eof
  | fail (cause : String)
  | value (m : Message) (rest : List Byte) (s : σ)

/-- The call `dec.Decode(msg)` on a stream with `input` left: `io.EOF` exactly
when the input is at its end, otherwise what the decoder makes of the input. -/
def Gob.Decode (g : Gob) (s : g.DecState) (input : List Byte) : DecodeStep g.DecState :=
  match input with
  | [] => DecodeStep.eof
  | b :: bs =>
    match g.decode s (b :: bs) with
    | Except.error e => DecodeStep.fail e
    | Except.ok (m, extra, s1) => DecodeStep.value m (bs.drop extra) s1

/-- What the store relies on: a stream written by an encoder is read back by a
decoder value by value.  Encoder and decoder states that have seen the same
values are related by `R`; a value encoded in a state is at least one byte
long and decodes, in a related state and whatever follows it in the stream, to
the stored fields of the value, taking exactly its own bytes. -/
def Gob.Lawful (g : Gob) : Prop :=
  ∃ R : g.EncState → g.DecState → Prop,
    R g.newEncoder g.newDecoder ∧
    ∀ es ds m bytes es1, R es ds → g.encode es m = Except.ok (bytes, es1) →
      bytes ≠ [] ∧
      ∀ rest, ∃ ds1, g.decode ds (bytes ++ rest) = Except.ok (m.stored, bytes.length - 1, ds1) ∧
        R es1 ds1

/-! ## Reading the index -/

/-- The decode loop of `readIndex`: append every decoded message to the
mailbox, linked back to it, until the stream ends (`none`) or a value fails to
decode (`some cause`). -/
def decodeLoop (g : Gob) (s : g.DecState) (input : List Byte) (mb : Mailbox) :
    Option String × Mailbox :=
  match h : g.Decode s input with
  | DecodeStep.eof => (none, mb)
  | DecodeStep.fail e => (some e, mb)
  | DecodeStep.value m rest s1 =>
    decodeLoop g s1 rest
      { mb with messages := mb.messages ++ [{ m with mailbox := some mb.path }] }
termination_by input.length
decreasing_by
  unfold Gob.Decode at h
  split at h
  · cases h
  · split at h
    · cases h
    · cases h
      simp only [List.length_drop, List.length_cons]
      omega

/-- The call `os.Open(p)` for reading: the node read from. -/
def osOpen (fs : FS) (p : Path) : Except Error Node :=
  match fs.get p with
  | some n => Except.ok n
  | none => Except.error (Error.pathError "open" p Errno.ENOENT)

/-- The method `readIndex`: loads the mailbox index data from disk. -/
def Mailbox.readIndex (g : Gob) (mb : Mailbox) (fs : FS) : Option Error × Mailbox × FS :=
  -- Clear message slice, open index
  let mb0 : Mailbox := { mb with messages := [] }
  -- Check if index exists
  match osStat fs mb0.indexPath with
  | Except.error _ =>
    -- Does not exist, but that's not an error in our world
    (none, { mb0 with indexLoaded := true }, fs)
  | Except.ok _ =>
    match osOpen fs mb0.indexPath with
    | Except.error e => (some e, mb0, fs)
    | Except.ok Node.dir =>
      -- reading a directory fails; the decoder passes the read error on
      (some (Error.corruptMailbox mb0.indexPath "read: is a directory"), mb0, fs)
    | Except.ok (Node.file data) =>
      -- Decode gob data
      match decodeLoop g g.newDecoder data mb0 with
      | (some cause, mb1) => (some (Error.corruptMailbox mb0.indexPath cause), mb1, fs)
      | (none, mb1) => (none, { mb1 with indexLoaded := true }, fs)

/-- The method `GetMessages`: the messages of the mailbox, loading the index
first when it is not loaded. -/
def Mailbox.GetMessages (g : Gob) (mb : Mailbox) (fs : FS) :
    Except Error (List Message) × Mailbox × FS :=
  if !mb.indexLoaded then
    match mb.readIndex g fs with
    | (some err, mb1, fs1) => (Except.error err, mb1, fs1)
    | (none, mb1, fs1) => (Except.ok mb1.messages, mb1, fs1)
  else
    (Except.ok mb.messages, mb, fs)

/-- The lookup of `GetMessage` once the index is loaded. -/
def Mailbox.lookupMessage (mb : Mailbox) (id : String) : Except Error Message :=
  if h : id = "latest" ∧ mb.messages.length ≠ 0 then
    Except.ok (mb.messages.getLast (fun hnil => h.2 (congrArg List.length hnil)))
  else
    match mb.messages.find? (fun m => decide (m.Fid = id)) with
    | some m => Except.ok m
    | none => Except.error Error.errNotExist

/-- The method `GetMessage`: a single message by id. -/
def Mailbox.GetMessage (g : Gob) (mb : Mailbox) (id : String) (fs : FS) :
    Except Error Message × Mailbox × FS :=
  if !mb.indexLoaded then
    match mb.readIndex g fs with
    | (some err, mb1, fs1) => (Except.error err, mb1, fs1)
    | (none, mb1, fs1) => (mb1.lookupMessage id, mb1, fs1)
  else
    (mb.lookupMessage id, mb, fs)

/-! ## Writing the index -/

/-- A `bufio.Writer` on the index file: the bytes that reached the file and the
bytes still in the buffer. -/
structure Writer where
  file : List Byte
  buf : List Byte
deriving DecidableEq, Repr

/-- Size of the buffer of `bufio.NewWriter`. -/
def defaultBufSize : Nat := 4096

/-- The method `Write` of `bufio.Writer`: what does not fit the buffer is
flushed; a write larger than the empty buffer goes to the file directly. -/
def Writer.Write (w : Writer) (p : List Byte) : Writer :=
  if p.length ≤ defaultBufSize - w.buf.length then
    { w with buf := w.buf ++ p }
  else if w.buf = [] then
    { w with file := w.file ++ p }
  else
    let avail := defaultBufSize - w.buf.length
    let w1 : Writer := { file := w.file ++ (w.buf ++ p.take avail), buf := [] }
    let q := p.drop avail
    if q.length ≤ defaultBufSize then { w1 with buf := q }
    else { w1 with file := w1.file ++ q }

/-- The method `Flush` of `bufio.Writer`. -/
def Writer.Flush (w : Writer) : Writer :=
  { file := w.file ++ w.buf, buf := [] }

/-- The encode loop of `writeIndex`: write each message; stop at the first
message that fails to encode. -/
def encodeLoop (g : Gob) (s : g.EncState) (w : Writer) :
    List Message → Option String × Writer
  | [] => (none, w)
  | m :: ms =>
    match g.encode s m with
    | Except.error e => (some e, w)
    | Except.ok (bytes, s1) => encodeLoop g s1 (w.Write bytes) ms

/-- The method `createDir`: checks for the presence of the path for this
mailbox, creates it if needed. -/
def Mailbox.createDir (mb : Mailbox) (fs : FS) : Option Error × FS :=
  match osStat fs mb.path with
  | Except.ok _ => (none, fs)
  | Except.error _ =>
    match osMkdirAll fs mb.path with
    | Except.error e => (some e, fs)
    | Except.ok fs1 => (none, fs1)

/-- The function `removeDirIfEmpty`: remove the directory if it contains no
files or directories.  Returns true if the directory was removed. -/
def removeDirIfEmpty (fs : FS) (path : Path) : Bool × FS :=
  match readdirnames fs path with
  | Except.error _ => (false, fs)
  | Except.ok files =>
    if files.length > 0 then
      -- Dir not empty
      (false, fs)
    else
      match osRemove fs path with
      | Except.error _ => (false, fs)
      | Except.ok fs1 => (true, fs1)

/-- The method `removeDir`: removes the mailbox, plus empty higher level
directories. -/
def Mailbox.removeDir (mb : Mailbox) (fs : FS) : Option Error × FS :=
  -- remove mailbox dir, including index file
  match osRemoveAll fs mb.path with
  | Except.error e => (some e, fs)
  | Except.ok fs1 =>
    -- remove parents if empty
    let dir := mb.path.dropLast
    match removeDirIfEmpty fs1 dir with
    | (true, fs2) => (none, (removeDirIfEmpty fs2 dir.dropLast).2)
    | (false, fs2) => (none, fs2)

/-- The method `writeIndex`: overwrites the index on disk with the current
mailbox data. -/
def Mailbox.writeIndex (g : Gob) (mb : Mailbox) (fs : FS) : Option Error × FS :=
  if mb.messages.length > 0 then
    -- Ensure mailbox directory exists
    match mb.createDir fs with
    | (some err, fs1) => (some err, fs1)
    | (none, fs1) =>
      -- Open index for writing
      match osCreate fs1 mb.indexPath with
      | Except.error err => (some err, fs1)
      | Except.ok fs2 =>
        -- Write each message and then flush
        match encodeLoop g g.newEncoder { file := [], buf := [] } mb.messages with
        | (some cause, w) => (some (Error.encodeError cause), fs2.put mb.indexPath (Node.file w.file))
        | (none, w) => (none, fs2.put mb.indexPath (Node.file w.Flush.file))
  else
    -- No messages, delete index+maildir
    mb.removeDir fs

/-- The method `Purge`: deletes all messages in this mailbox. -/
def Mailbox.Purge (g : Gob) (mb : Mailbox) (fs : FS) : Option Error × Mailbox × FS :=
  let mb1 : Mailbox := { mb with messages := [] }
  match mb1.writeIndex g fs with
  | (err, fs1) => (err, mb1, fs1)

/-! ## The store -/

/-- The functions of package `stringutil` the store calls. -/
structure Stringutil where
  ParseMailboxName : String → Except String String
  HashMailboxName : String → String

/-- The slice expression `s[lo:hi]` of a string of one-byte characters; out of
range it panics (`none`). -/
def goSlice (s : String) (lo hi : Nat) : Option String :=
  if lo ≤ hi ∧ hi ≤ s.length then some (String.mk ((s.data.drop lo).take (hi - lo)))
  else none

/-- The function `New`: creates a new store using the configured path, making
its mail directory when it is not there. -/
def New (cfg : DataStoreConfig) (fs : FS) : Option Store × FS :=
  let path := cfg.Path
  if path = [] then
    (none, fs)
  else
    let mailPath := path ++ ["mail"]
    let fs1 :=
      match osStat fs mailPath with
      | Except.ok _ => fs
      | Except.error _ =>
        -- Mail datastore does not yet exist
        match osMkdirAll fs mailPath with
        | Except.ok fs1 => fs1
        | Except.error _ => fs
    (some { path := path, mailPath := mailPath, messageCap := cfg.MailboxMsgCap }, fs1)

/-- The method `MailboxFor`: the mailbox handle for an email address. -/
def Store.MailboxFor (su : Stringutil) (ds : Store) (emailAddress : String) :
    Except Error Mailbox :=
  match su.ParseMailboxName emailAddress with
  | Except.error err => Except.error (Error.invalidAddress err)
  | Except.ok name =>
    let dir := su.HashMailboxName name
    match goSlice dir 0 3 with
    | none => Except.error Error.sliceBounds
    | some s1 =>
      match goSlice dir 0 6 with
      | none => Except.error Error.sliceBounds
      | some s2 =>
        let path := ds.mailPath ++ [s1, s2, dir]
        let indexPath := path ++ [indexFileName]
        Except.ok { store := ds, name := name, dirName := dir, path := path,
                    indexLoaded := false, indexPath := indexPath, messages := [] }

/-- The innermost loop of `AllMailboxes`: one handle per mailbox directory. -/
def leafLoop (ds : Store) (l1 l2 : String) : List FileInfo → List Mailbox → List Mailbox
  | [], mailboxes => mailboxes
  | inf3 :: rest, mailboxes =>
    if inf3.IsDir then
      let mbdir := inf3.Name
      let mbpath := ds.mailPath ++ [l1, l2, mbdir]
      let idx := mbpath ++ [indexFileName]
      let mb : Mailbox := { store := ds, name := "", dirName := mbdir, path := mbpath,
                            indexLoaded := false, indexPath := idx, messages := [] }
      leafLoop ds l1 l2 rest (mailboxes ++ [mb])
    else
      leafLoop ds l1 l2 rest mailboxes

/-- The loop of `AllMailboxes` over level 2 directories. -/
def level2Loop (ds : Store) (fs : FS) (l1 : String) :
    List FileInfo → List Mailbox → Except Error (List Mailbox)
  | [], mailboxes => Except.ok mailboxes
  | inf2 :: rest, mailboxes =>
    if inf2.IsDir then
      let l2 := inf2.Name
      match ioutilReadDir fs (ds.mailPath ++ [l1, l2]) with
      | Except.error err => Except.error err
      | Except.ok infos3 => level2Loop ds fs l1 rest (leafLoop ds l1 l2 infos3 mailboxes)
    else
      level2Loop ds fs l1 rest mailboxes

/-- The loop of `AllMailboxes` over level 1 directories. -/
def level1Loop (ds : Store) (fs : FS) :
    List FileInfo → List Mailbox → Except Error (List Mailbox)
  | [], mailboxes => Except.ok mailboxes
  | inf1 :: rest, mailboxes =>
    if inf1.IsDir then
      let l1 := inf1.Name
      match ioutilReadDir fs (ds.mailPath ++ [l1]) with
      | Except.error err => Except.error err
      | Except.ok infos2 =>
        match level2Loop ds fs l1 infos2 mailboxes with
        | Except.error err => Except.error err
        | Except.ok mailboxes1 => level1Loop ds fs rest mailboxes1
    else
      level1Loop ds fs rest mailboxes

/-- The method `AllMailboxes`: a slice with all mailboxes. -/
def Store.AllMailboxes (ds : Store) (fs : FS) : Except Error (List Mailbox) :=
  match ioutilReadDir fs ds.mailPath with
  | Except.error err => Except.error err
  | Except.ok infos1 => level1Loop ds fs infos1 []

/-! ## Message identifiers -/

/-- The value `countGenerator` sends at its `k`-th send (counting from 0): the
loop variable starts at 0 and steps by `i = (i + 1) % 10000`. -/
def countGenerator : Nat → Nat
  | 0 => 0
  | k + 1 => (countGenerator k + 1) % 10000

/-- Decimal digits of a number, most significant first. -/
def decimal (n : Nat) : List Char :=
  Nat.toDigits 10 n

/-- The verbs `%0wd` of `fmt.Sprintf` and the fixed-width numbers of
`time.Format`, for `w ≥ 1`: decimal, padded with zeros to width `w`. -/
def zeroPad (w n : Nat) : String :=
  String.mk (List.replicate (w - (decimal n).length) '0' ++ decimal n)

/-- The function `generatePrefix`: the time in the layout `20060102T150405`. -/
def generatePrefix (date : Time) : String :=
  zeroPad 4 date.year ++ zeroPad 2 date.month ++ zeroPad 2 date.day ++ "T" ++
    zeroPad 2 date.hour ++ zeroPad 2 date.minute ++ zeroPad 2 date.second

/-- The function `generateID`, for the `k`-th value drawn from the channel. -/
def generateID (date : Time) (k : Nat) : String :=
  generatePrefix date ++ "-" ++ zeroPad 4 (countGenerator k)

/-- The number a string of decimal digits stands for. -/
def decimalValue (cs : List Char) : Nat :=
  cs.foldl (fun acc c => acc * 10 + (c.toNat - 48)) 0

/-- The handles the store makes, by `MailboxFor` or `AllMailboxes`: the path is
three levels below the mail directory of the store and ends in the directory
name of the mailbox, and the index is the index file inside it. -/
def Mailbox.Resolved (mb : Mailbox) : Prop :=
  (∃ l1 l2, mb.path = mb.store.mailPath ++ [l1, l2, mb.dirName]) ∧
  mb.indexPath = mb.path ++ [indexFileName]

/-- The names of the directories that `ioutil.ReadDir` lists in `p`, in its
order; none when `p` cannot be listed. -/
def subdirNames (fs : FS) (p : Path) : List String :=
  match ioutilReadDir fs p with
  | Except.ok infos => (infos.filter (fun inf => inf.IsDir)).map (fun inf => inf.Name)
  | Except.error _ => []

/-- The handle `AllMailboxes` makes for the directory `mailPath/l1/l2/mbdir`. -/
def leafHandle (ds : Store) (l1 l2 mbdir : String) : Mailbox :=
  { store := ds, name := "", dirName := mbdir, path := ds.mailPath ++ [l1, l2, mbdir],
    indexLoaded := false, indexPath := ds.mailPath ++ [l1, l2, mbdir] ++ [indexFileName],
    messages := [] }

/-- The mailboxes of a tree: a handle for every directory three levels below
the mail directory whose two levels above are directories, in listing order. -/
def enumerate (ds : Store) (fs : FS) : List Mailbox :=
  (subdirNames fs ds.mailPath).flatMap (fun l1 =>
    (subdirNames fs (ds.mailPath ++ [l1])).flatMap (fun l2 =>
      (subdirNames fs (ds.mailPath ++ [l1, l2])).map (leafHandle ds l1 l2)))

/-! ## Streams that do not decode -/

/-- Linking a decoded record back to the mailbox at `path`. -/
def Message.linkTo (path : Path) (m : Message) : Message :=
  { m with mailbox := some path }

/-- Decoding the stream `input` from state `s` yields the records `ms`, one
call of `Decode` after the other, and then a failure `cause` that is not the
end of the stream. -/
inductive DecodesThenFails (g : Gob) :
    g.DecState → List Byte → List Message → String → Prop where
  | fail {s : g.DecState} {input : List Byte} {cause : String} :
      g.Decode s input = DecodeStep.fail cause → DecodesThenFails g s input [] cause
  | value {s s1 : g.DecState} {input rest : List Byte} {m : Message} {ms : List Message}
      {cause : String} :
      g.Decode s input = DecodeStep.value m rest s1 →
      DecodesThenFails g s1 rest ms cause → DecodesThenFails g s input (m :: ms) cause

/-! ## Sample data

A small gob codec, a store and messages to run the definitions on. -/

/-- A codec that knows the messages of a table: a message is encoded as the one
byte that is its position in the table. -/
def tableGob (table : List Message) : Gob where
  EncState := Unit
  DecState := Unit
  newEncoder := ()
  newDecoder := ()
  encode := fun _ m =>
    let i := table.indexOf m.stored
    if h : i < table.length ∧ i < 256 then Except.ok ([⟨i, h.2⟩], ())
    else Except.error "gob: type not registered"
  decode := fun _ input =>
    match input with
    | [] => Except.error "unexpected EOF"
    | b :: _ =>
      match table[b.val]? with
      | some m => Except.ok (m, 0, ())
      | none => Except.error "gob: unknown type id"

def sampleTime : Time :=
  { year := 2018, month := 3, day := 9, hour := 14, minute := 5, second := 7 }

def sampleStore : Store :=
  { path := ["data"], mailPath := ["data", "mail"], messageCap := 100 }

def samplePath : Path := ["data", "mail", "abc", "abcdef", "abcdef0123"]

def sampleMessage (id : String) : Message :=
  { mailbox := some samplePath, Fid := id, Fdate := sampleTime, Ffrom := "a@x",
    Fto := ["bob@example.com"], Fsubject := "hi", Fsize := 12 }

def sampleTable : List Message :=
  [(sampleMessage "m1").stored, (sampleMessage "m2").stored, (sampleMessage "m3").stored]

def sampleGob : Gob := tableGob sampleTable

def sampleMailbox (loaded : Bool) (msgs : List Message) : Mailbox :=
  { store := sampleStore, name := "bob", dirName := "abcdef0123", path := samplePath,
    indexLoaded := loaded, indexPath := samplePath ++ [indexFileName], messages := msgs }

/-- A disk that holds the sample mailbox with the given index content. -/
def sampleDisk (data : List Byte) : FS :=
  [(["data"], Node.dir), (["data", "mail"], Node.dir), (["data", "mail", "abc"], Node.dir),
   (["data", "mail", "abc", "abcdef"], Node.dir), (samplePath, Node.dir),
   (samplePath ++ [indexFileName], Node.file data)]

/-- Sample `stringutil`: the name is the part before the at sign, lower case
letters and digits only; the hash of the samples is a fixed table. -/
def sampleStringutil : Stringutil where
  ParseMailboxName := fun address =>
    let name := String.mk (address.data.takeWhile (fun c => decide (c ≠ '@')))
    if name.data ≠ [] ∧ name.data.all (fun c => c.isLower || c.isDigit) then Except.ok name
    else Except.error "Mailbox name contained invalid character"
  HashMailboxName := fun name =>
    if name = "bob" then "abcdef0123" else "0123456789"

def sampleConfig : DataStoreConfig := { Path := ["data"], MailboxMsgCap := 100 }

/-- The disk after the sample mailbox was written to an empty disk. -/
def writtenDisk (data : List Byte) : FS :=
  [(samplePath ++ [indexFileName], Node.file data), (samplePath, Node.dir),
   (["data", "mail", "abc", "abcdef"], Node.dir), (["data", "mail", "abc"], Node.dir),
   (["data", "mail"], Node.dir), (["data"], Node.dir)]

instance (fs : FS) : Decidable fs.WF := by
  unfold FS.WF
  infer_instance

/-- A disk with the sample mailbox and a second mailbox under the same first
shard level. -/
def twoBoxDisk : FS :=
  [(["data"], Node.dir), (["data", "mail"], Node.dir), (["data", "mail", "abc"], Node.dir),
   (["data", "mail", "abc", "abcdef"], Node.dir), (samplePath, Node.dir),
   (samplePath ++ [indexFileName], Node.file [0]),
   (["data", "mail", "abc", "abc999"], Node.dir),
   (["data", "mail", "abc", "abc999", "abc9990000"], Node.dir),
   (["data", "mail", "abc", "abc999", "abc9990000", indexFileName], Node.file [1])]

/-- The disk `twoBoxDisk` after the sample mailbox was purged. -/
def otherBoxDisk : FS :=
  [(["data"], Node.dir), (["data", "mail"], Node.dir), (["data", "mail", "abc"], Node.dir),
   (["data", "mail", "abc", "abc999"], Node.dir),
   (["data", "mail", "abc", "abc999", "abc9990000"], Node.dir),
   (["data", "mail", "abc", "abc999", "abc9990000", indexFileName], Node.file [1])]

/-! # Theorems -/

/-! ## Looking messages up -/

/-- C2. On a loaded mailbox `GetMessage("latest")` returns `storage.ErrNotExist`
when there are no messages, and otherwise the last message of the list,
whatever the identifiers of the messages are; nothing is changed. -/
theorem getMessage_latest (g : Gob) (mb : Mailbox) (fs : FS)
    (hloaded : mb.indexLoaded = true) :
    (mb.messages = [] →
      mb.GetMessage g "latest" fs = (Except.error Error.errNotExist, mb, fs)) ∧
    (∀ hne : mb.messages ≠ [],
      mb.GetMessage g "latest" fs = (Except.ok (mb.messages.getLast hne), mb, fs)) := by
  constructor
  · intro hnil
    simp [Mailbox.GetMessage, Mailbox.lookupMessage, hloaded, hnil]
  · intro hne
    simp [Mailbox.GetMessage, Mailbox.lookupMessage, hloaded, hne]

/-- A loaded mailbox with three messages gives the last one for "latest". -/
theorem getMessage_latest_witness :
    (sampleMailbox true [sampleMessage "m1", sampleMessage "m2", sampleMessage "m3"]).GetMessage
        sampleGob "latest" [] =
      (Except.ok (sampleMessage "m3"),
        sampleMailbox true [sampleMessage "m1", sampleMessage "m2", sampleMessage "m3"], []) :=
  (getMessage_latest sampleGob
    (sampleMailbox true [sampleMessage "m1", sampleMessage "m2", sampleMessage "m3"]) [] rfl).2
    (by simp [sampleMailbox])

/-- C3. On a loaded mailbox and for an id other than "latest", `GetMessage(id)`
returns `storage.ErrNotExist` exactly when no message has that identifier;
when some message has it, the result is the first such message in list order.
The handle, with its message list, and the file system are left as they were. -/
theorem getMessage_by_id (g : Gob) (mb : Mailbox) (id : String) (fs : FS)
    (hloaded : mb.indexLoaded = true) (hid : id ≠ "latest") :
    ((mb.GetMessage g id fs).1 = Except.error Error.errNotExist ↔
        ∀ m ∈ mb.messages, m.Fid ≠ id) ∧
    ((∃ m ∈ mb.messages, m.Fid = id) →
      ∃ before m after, mb.messages = before ++ m :: after ∧ m.Fid = id ∧
        (∀ x ∈ before, x.Fid ≠ id) ∧ (mb.GetMessage g id fs).1 = Except.ok m) ∧
    (mb.GetMessage g id fs).2 = (mb, fs) := by
  have hget : mb.GetMessage g id fs =
      ((match mb.messages.find? (fun m => decide (m.Fid = id)) with
        | some m => Except.ok m
        | none => Except.error Error.errNotExist), mb, fs) := by
    simp [Mailbox.GetMessage, Mailbox.lookupMessage, hloaded, hid]
  refine ⟨?_, ?_, ?_⟩
  · rw [hget]
    cases hf : mb.messages.find? (fun m => decide (m.Fid = id)) with
    | none =>
      simp only [true_iff]
      intro m hm
      have := List.find?_eq_none.mp hf m hm
      simpa using this
    | some m =>
      have hm := List.find?_some hf
      have hmem := List.mem_of_find?_eq_some hf
      simp only [decide_eq_true_eq] at hm
      constructor
      · intro h
        cases h
      · intro h
        exact absurd hm (h m hmem)
  · rintro ⟨m0, hm0, hid0⟩
    cases hf : mb.messages.find? (fun m => decide (m.Fid = id)) with
    | none =>
      have := List.find?_eq_none.mp hf m0 hm0
      simp [hid0] at this
    | some m =>
      obtain ⟨hp, before, after, hsplit, hbefore⟩ := List.find?_eq_some.mp hf
      refine ⟨before, m, after, hsplit, by simpa using hp, ?_, ?_⟩
      · intro x hx
        simpa using hbefore x hx
      · rw [hget, hf]
  · rw [hget]

/-- Looking "m2" up among three messages gives a result, and looking "m9" up
gives `storage.ErrNotExist`. -/
theorem getMessage_by_id_witness :
    (∃ before m after,
      [sampleMessage "m1", sampleMessage "m2", sampleMessage "m2"] = before ++ m :: after ∧
      m.Fid = "m2" ∧ (∀ x ∈ before, x.Fid ≠ "m2") ∧
      ((sampleMailbox true [sampleMessage "m1", sampleMessage "m2", sampleMessage "m2"]).GetMessage
        sampleGob "m2" []).1 = Except.ok m) ∧
    ((sampleMailbox true [sampleMessage "m1"]).GetMessage sampleGob "m9" []).1 =
      Except.error Error.errNotExist :=
  ⟨(getMessage_by_id sampleGob
      (sampleMailbox true [sampleMessage "m1", sampleMessage "m2", sampleMessage "m2"])
      "m2" [] rfl (by decide)).2.1 ⟨sampleMessage "m2", by simp [sampleMailbox], rfl⟩,
   (getMessage_by_id sampleGob (sampleMailbox true [sampleMessage "m1"])
      "m9" [] rfl (by decide)).1.mpr (by simp [sampleMailbox, sampleMessage])⟩

/-! ## Reading the index -/

/-- C4. A missing index file is not an error: `readIndex` returns no error,
leaves the handle with zero messages and the index marked as loaded, and
`GetMessages` on a handle that is not loaded returns the empty sequence; the
file system is not modified. -/
theorem readIndex_missing (g : Gob) (mb : Mailbox) (fs : FS)
    (hmissing : fs.get mb.indexPath = none) :
    mb.readIndex g fs = (none, { mb with messages := [], indexLoaded := true }, fs) ∧
    (mb.indexLoaded = false →
      mb.GetMessages g fs =
        (Except.ok [], { mb with messages := [], indexLoaded := true }, fs)) := by
  have hread : mb.readIndex g fs =
      (none, { mb with messages := [], indexLoaded := true }, fs) := by
    simp [Mailbox.readIndex, osStat, hmissing]
  refine ⟨hread, ?_⟩
  intro hnot
  simp [Mailbox.GetMessages, hnot, hread]

/-- A handle that still holds stale messages, on an empty disk: reading the
index empties it and marks it loaded. -/
theorem readIndex_missing_witness :
    (sampleMailbox false [sampleMessage "m1"]).GetMessages sampleGob [] =
      (Except.ok [], sampleMailbox true [], []) :=
  (readIndex_missing sampleGob (sampleMailbox false [sampleMessage "m1"]) [] rfl).2 rfl

/-- The decode loop on a stream that yields `ms` and then fails: the failure is
reported, the records decoded so far stay in the handle. -/
theorem decodeLoop_of_decodesThenFails (g : Gob) {s : g.DecState} {input : List Byte}
    {ms : List Message} {cause : String} (h : DecodesThenFails g s input ms cause) :
    ∀ mb : Mailbox, decodeLoop g s input mb =
      (some cause, { mb with messages := mb.messages ++ ms.map (Message.linkTo mb.path) }) := by
  induction h with
  | fail hd =>
    intro mb
    rw [decodeLoop]
    split
    · rename_i h1
      rw [hd] at h1
      cases h1
    · rename_i h1
      rw [hd] at h1
      cases h1
      simp
    · rename_i h1
      rw [hd] at h1
      cases h1
  | value hd _ ih =>
    intro mb
    rw [decodeLoop]
    split
    · rename_i h1
      rw [hd] at h1
      cases h1
    · rename_i h1
      rw [hd] at h1
      cases h1
    · rename_i h1
      rw [hd] at h1
      cases h1
      rw [ih]
      simp [Message.linkTo]

/-- C5. A corrupt index is fatal: when the index file exists and its content
decodes to `k ≥ 0` records followed by a decode failure other than the end of
the stream, `GetMessages` on a handle that is not loaded returns the error
`Corrupt mailbox` naming the index path of the mailbox, and no records.  The
records decoded before the failure are not returned; the index stays unloaded
and the file system unchanged. -/
theorem getMessages_corrupt (g : Gob) (mb : Mailbox) (fs : FS) (data : List Byte)
    (ms : List Message) (cause : String)
    (hnot : mb.indexLoaded = false)
    (hfile : fs.get mb.indexPath = some (Node.file data))
    (hdec : DecodesThenFails g g.newDecoder data ms cause) :
    mb.GetMessages g fs =
      (Except.error (Error.corruptMailbox mb.indexPath cause),
        { mb with messages := ms.map (Message.linkTo mb.path) }, fs) := by
  obtain ⟨store, name, dirName, path, loaded, indexPath, messages⟩ := mb
  simp only at hnot hfile
  subst hnot
  have hloop := decodeLoop_of_decodesThenFails g hdec
    { store := store, name := name, dirName := dirName, path := path, indexLoaded := false,
      indexPath := indexPath, messages := [] }
  simp only [List.nil_append] at hloop
  simp [Mailbox.GetMessages, Mailbox.readIndex, osStat, osOpen, hfile, hloop]

/-- An index of two good records followed by a byte that does not decode: the
read fails and names the index path. -/
theorem getMessages_corrupt_witness :
    (sampleMailbox false []).GetMessages sampleGob (sampleDisk [0, 1, 7]) =
      (Except.error (Error.corruptMailbox (samplePath ++ [indexFileName]) "gob: unknown type id"),
        sampleMailbox false [sampleMessage "m1", sampleMessage "m2"], sampleDisk [0, 1, 7]) :=
  getMessages_corrupt sampleGob (sampleMailbox false []) (sampleDisk [0, 1, 7]) [0, 1, 7]
    [(sampleMessage "m1").stored, (sampleMessage "m2").stored] "gob: unknown type id"
    rfl (by decide)
    (@DecodesThenFails.value sampleGob () () [0, 1, 7] [1, 7] _ _ _ rfl
      (@DecodesThenFails.value sampleGob () () [1, 7] [7] _ _ _ rfl
        (@DecodesThenFails.fail sampleGob () [7] _ rfl)))

/-! ## Message identifiers -/

theorem countGenerator_eq_mod (k : Nat) : countGenerator k = k % 10000 := by
  induction k with
  | zero => rfl
  | succ k ih =>
    rw [countGenerator, ih]
    omega

theorem digitChar_toNat (d : Nat) (hd : d < 10) : (Nat.digitChar d).toNat - 48 = d := by
  interval_cases d <;> rfl

theorem toDigitsCore_value (fuel : Nat) : ∀ (n : Nat) (ds : List Char), n < fuel →
    ∃ front, Nat.toDigitsCore 10 fuel n ds = front ++ ds ∧
      ∀ a, front.foldl (fun acc c => acc * 10 + (c.toNat - 48)) a = a * 10 ^ front.length + n := by
  induction fuel with
  | zero => intro n ds h; omega
  | succ fuel ih =>
    intro n ds hn
    have hd := digitChar_toNat (n % 10) (Nat.mod_lt _ (by norm_num))
    rw [Nat.toDigitsCore]
    by_cases h0 : n / 10 = 0
    · refine ⟨[Nat.digitChar (n % 10)], by simp [h0], ?_⟩
      intro a
      simp only [List.foldl_cons, List.foldl_nil, List.length_singleton, pow_one, hd]
      omega
    · obtain ⟨front, hfront, hval⟩ := ih (n / 10) (Nat.digitChar (n % 10) :: ds) (by omega)
      refine ⟨front ++ [Nat.digitChar (n % 10)], by simp [h0, hfront], ?_⟩
      intro a
      rw [List.foldl_append, hval]
      simp only [List.foldl_cons, List.foldl_nil, List.length_append, List.length_singleton, hd,
        pow_succ]
      have := Nat.div_add_mod n 10
      nlinarith [this]

theorem decimalValue_decimal (n : Nat) : decimalValue (decimal n) = n := by
  obtain ⟨front, hfront, hval⟩ := toDigitsCore_value (n + 1) n [] (Nat.lt_succ_self n)
  unfold decimalValue decimal Nat.toDigits
  rw [hfront, List.append_nil, hval]
  simp

theorem decimalValue_zeros (k : Nat) (cs : List Char) :
    decimalValue (List.replicate k '0' ++ cs) = decimalValue cs := by
  unfold decimalValue
  rw [List.foldl_append]
  congr 1
  induction k with
  | zero => rfl
  | succ k ih =>
    rw [List.replicate_succ, List.foldl_cons]
    exact ih

theorem zeroPad_value (w n : Nat) : decimalValue (zeroPad w n).data = n := by
  unfold zeroPad
  rw [decimalValue_zeros, decimalValue_decimal]

theorem zeroPad_length (n : Nat) (hn : n < 10000) : (zeroPad 4 n).length = 4 := by
  have h : (decimal n).length ≤ 4 := by
    unfold decimal Nat.toDigits
    exact Nat.toDigitsCore_length 10 (by norm_num) (n + 1) n 4 (by norm_num; exact hn)
      (by norm_num)
  unfold zeroPad
  simp only [String.length, List.length_append, List.length_replicate]
  omega

/-- C10. The `k`-th value sent by `countGenerator` is `k mod 10000`, and
`generateID` is the time in the layout `20060102T150405`, a hyphen and the
drawn counter padded with zeros to exactly four digits.  Hence two identifiers
built from the same time with counters drawn at different positions `i` and
`j` less than 10000 apart are different. -/
theorem generateID_distinct (date : Time) (i j : Nat)
    (hne : i ≠ j) (hij : i < j + 10000) (hji : j < i + 10000) :
    (∀ k, countGenerator k = k % 10000) ∧
    (∀ k, generateID date k = generatePrefix date ++ "-" ++ zeroPad 4 (k % 10000) ∧
      (zeroPad 4 (k % 10000)).length = 4) ∧
    generateID date i ≠ generateID date j := by
  refine ⟨countGenerator_eq_mod, ?_, ?_⟩
  · intro k
    refine ⟨?_, zeroPad_length _ (Nat.mod_lt _ (by norm_num))⟩
    rw [generateID, countGenerator_eq_mod]
  · intro heq
    rw [generateID, generateID, countGenerator_eq_mod, countGenerator_eq_mod] at heq
    have hdata := congrArg String.data heq
    simp only [String.data_append, List.append_cancel_left_eq] at hdata
    have hval := congrArg decimalValue hdata
    rw [zeroPad_value, zeroPad_value] at hval
    omega

/-- The counters drawn at positions 3 and 10002 differ, and so do the two
identifiers built from one time. -/
theorem generateID_distinct_witness :
    generateID sampleTime 3 ≠ generateID sampleTime 10002 ∧
    generateID sampleTime 3 = "20180309T140507-0003" :=
  ⟨(generateID_distinct sampleTime 3 10002 (by decide) (by decide) (by decide)).2.2,
   by decide⟩

/-! ## Resolving addresses -/

theorem New_some (cfg : DataStoreConfig) (fs fs1 : FS) (ds : Store)
    (hnew : New cfg fs = (some ds, fs1)) :
    ds = { path := cfg.Path, mailPath := cfg.Path ++ ["mail"], messageCap := cfg.MailboxMsgCap } := by
  unfold New at hnew
  by_cases h : cfg.Path = []
  · simp [h] at hnew
  · simp only [h, if_false, Prod.mk.injEq, Option.some.injEq] at hnew
    exact hnew.1.symm

theorem goSlice_zero (s : String) (n : Nat) (h : n ≤ s.length) :
    goSlice s 0 n = some (String.mk (s.data.take n)) := by
  simp [goSlice, h]

/-- C8. For a store made by `New` from the base path `base` and an address
that normalises to a name whose hash `h` has at least 6 characters,
`MailboxFor` returns the handle with path `base/mail/h[0:3]/h[0:6]/h` and
index path `path/index.gob`.  It fails exactly when the normalisation of the
address fails, and path and index path depend only on the base path and the
normalised name: another store on the same base path and another address
with the same normalisation give the same two paths. -/
theorem mailboxFor_layout (su : Stringutil) (cfg : DataStoreConfig) (fs fs1 : FS)
    (ds : Store) (address : String)
    (hnew : New cfg fs = (some ds, fs1))
    (hlen : ∀ name, su.ParseMailboxName address = Except.ok name →
      6 ≤ (su.HashMailboxName name).length) :
    (∀ name, su.ParseMailboxName address = Except.ok name →
      ds.MailboxFor su address = Except.ok
        { store := ds, name := name, dirName := su.HashMailboxName name,
          path := cfg.Path ++ ["mail", String.mk ((su.HashMailboxName name).data.take 3),
            String.mk ((su.HashMailboxName name).data.take 6), su.HashMailboxName name],
          indexLoaded := false,
          indexPath := cfg.Path ++ ["mail", String.mk ((su.HashMailboxName name).data.take 3),
            String.mk ((su.HashMailboxName name).data.take 6), su.HashMailboxName name] ++
            [indexFileName],
          messages := [] }) ∧
    ((∃ err, ds.MailboxFor su address = Except.error err) ↔
      ∃ err, su.ParseMailboxName address = Except.error err) ∧
    (∀ (cfg2 : DataStoreConfig) (fs2 fs3 : FS) (ds2 : Store) (address2 : String),
      New cfg2 fs2 = (some ds2, fs3) → cfg2.Path = cfg.Path →
      su.ParseMailboxName address2 = su.ParseMailboxName address →
      (ds2.MailboxFor su address2).map (fun mb => (mb.path, mb.indexPath)) =
        (ds.MailboxFor su address).map (fun mb => (mb.path, mb.indexPath))) := by
  have hds := New_some cfg fs fs1 ds hnew
  have hok : ∀ name, su.ParseMailboxName address = Except.ok name →
      ds.MailboxFor su address = Except.ok
        { store := ds, name := name, dirName := su.HashMailboxName name,
          path := cfg.Path ++ ["mail", String.mk ((su.HashMailboxName name).data.take 3),
            String.mk ((su.HashMailboxName name).data.take 6), su.HashMailboxName name],
          indexLoaded := false,
          indexPath := cfg.Path ++ ["mail", String.mk ((su.HashMailboxName name).data.take 3),
            String.mk ((su.HashMailboxName name).data.take 6), su.HashMailboxName name] ++
            [indexFileName],
          messages := [] } := by
    intro name hname
    have h6 := hlen name hname
    have h3 : 3 ≤ (su.HashMailboxName name).length := by omega
    have hmail : ds.mailPath = cfg.Path ++ ["mail"] := by rw [hds]
    simp only [Store.MailboxFor, hname, goSlice_zero _ 3 h3, goSlice_zero _ 6 h6, hmail,
      List.append_assoc, List.singleton_append, List.cons_append, List.nil_append]
  refine ⟨hok, ?_, ?_⟩
  · constructor
    · rintro ⟨err, herr⟩
      cases hp : su.ParseMailboxName address with
      | error e => exact ⟨e, rfl⟩
      | ok name =>
        rw [hok name hp] at herr
        cases herr
    · rintro ⟨err, herr⟩
      exact ⟨Error.invalidAddress err, by simp [Store.MailboxFor, herr]⟩
  · intro cfg2 fs2 fs3 ds2 address2 hnew2 hpath hparse
    have hds2 := New_some cfg2 fs2 fs3 ds2 hnew2
    cases hp : su.ParseMailboxName address with
    | error e =>
      simp [Store.MailboxFor, hp, hparse, Except.map]
    | ok name =>
      have hmail : ds.mailPath = cfg.Path ++ ["mail"] := by rw [hds]
      have hmail2 : ds2.mailPath = cfg.Path ++ ["mail"] := by rw [hds2, hpath]
      have h6 := hlen name hp
      have h3 : 3 ≤ (su.HashMailboxName name).length := by omega
      simp [Store.MailboxFor, hp, hparse, Except.map, goSlice_zero _ 3 h3,
        goSlice_zero _ 6 h6, hmail, hmail2]

/-- The address of bob resolves below the mail directory of the sample store,
sharded by the first three and six characters of the hash. -/
theorem mailboxFor_layout_witness :
    (New sampleConfig []).1 = some sampleStore ∧
    sampleStore.MailboxFor sampleStringutil "bob@example.com" =
      Except.ok (sampleMailbox false []) :=
  ⟨by decide,
   (mailboxFor_layout sampleStringutil sampleConfig []
      [(["data", "mail"], Node.dir), (["data"], Node.dir)] sampleStore "bob@example.com"
      (by decide) (by
        intro name hname
        have : name = "bob" := by
          have h : sampleStringutil.ParseMailboxName "bob@example.com" = Except.ok "bob" := rfl
          rw [h] at hname
          cases hname
          rfl
        subst this
        decide)).1 "bob" rfl⟩

/-! ## The file system -/

theorem FS.get_cons (fs : FS) (c : String) (q : Path) :
    fs.get (c :: q) =
      (fs.find? (fun e => decide (e.1 = c :: q))).map Prod.snd := by
  unfold FS.get
  cases fs.find? (fun e => decide (e.1 = c :: q)) <;> rfl

theorem FS.get_of_ne_nil (fs : FS) (q : Path) (hq : q ≠ []) :
    fs.get q = (fs.find? (fun e => decide (e.1 = q))).map Prod.snd := by
  cases q with
  | nil => exact absurd rfl hq
  | cons c q => exact FS.get_cons fs c q

theorem FS.get_filter (fs : FS) (keep : Path → Bool) (q : Path) (hq : q ≠ []) :
    FS.get (fs.filter (fun e => keep e.1)) q = if keep q then fs.get q else none := by
  rw [FS.get_of_ne_nil _ q hq, FS.get_of_ne_nil _ q hq]
  induction fs with
  | nil => simp
  | cons e fs ih =>
    by_cases hk : keep e.1 = true
    · simp only [List.filter_cons, hk, if_true]
      by_cases he : e.1 = q
      · have hkq : keep q = true := by rw [← he]; exact hk
        simp only [List.find?_cons, he, decide_True, hkq, if_true]
      · simp only [List.find?_cons, he, decide_False]
        exact ih
    · have hkf : keep e.1 = false := by simpa using hk
      simp only [List.filter_cons, hkf, Bool.false_eq_true, if_false]
      by_cases he : e.1 = q
      · have hkq : keep q = false := by rw [← he]; exact hkf
        rw [ih]
        simp only [hkq, Bool.false_eq_true, if_false]
      · simp only [List.find?_cons, he, decide_False]
        exact ih

theorem FS.get_erase (fs : FS) (p q : Path) (hq : q ≠ []) :
    (fs.erase p).get q = if q = p then none else fs.get q := by
  have h := FS.get_filter fs (fun x => decide (x ≠ p)) q hq
  unfold FS.erase
  rw [h]
  by_cases hqp : q = p <;> simp [hqp]

theorem FS.get_put (fs : FS) (p q : Path) (n : Node) (hp : p ≠ []) :
    (fs.put p n).get q = if q = p then some n else fs.get q := by
  cases q with
  | nil =>
    have : ¬ ([] : Path) = p := fun h => hp h.symm
    simp [FS.get, this]
  | cons c q =>
    by_cases hqp : c :: q = p
    · subst hqp
      simp [FS.put, FS.get]
    · have hpq : ¬ p = c :: q := fun h => hqp h.symm
      rw [FS.get_cons]
      simp only [FS.put, List.find?_cons, hpq, decide_False, hqp, if_false]
      rw [← FS.get_cons, FS.get_erase _ _ _ (by simp)]
      simp [hqp]

theorem FS.get_isSome_iff (fs : FS) (q : Path) (hq : q ≠ []) :
    fs.get q ≠ none ↔ q ∈ fs.map Prod.fst := by
  rw [FS.get_of_ne_nil _ q hq]
  induction fs with
  | nil =>
    simp only [List.find?_nil, Option.map_none', ne_eq, not_true_eq_false, List.map_nil,
      List.not_mem_nil]
  | cons e fs ih =>
    by_cases he : e.1 = q
    · simp only [List.find?_cons, he, decide_True, Option.map_some', ne_eq, reduceCtorEq,
        not_false_eq_true, List.map_cons, List.mem_cons, true_or]
    · have hne : ¬ q = e.1 := fun h => he h.symm
      simp only [List.find?_cons, he, decide_False, List.map_cons, List.mem_cons, hne, false_or]
      exact ih

theorem FS.mem_names (fs : FS) (p : Path) (n : String) :
    n ∈ fs.names p ↔ fs.get (p ++ [n]) ≠ none := by
  rw [FS.get_isSome_iff _ _ (by simp)]
  unfold FS.names
  simp only [List.mem_filterMap]
  constructor
  · rintro ⟨q, hq, hmatch⟩
    cases hl : q.getLast? with
    | none => simp [hl] at hmatch
    | some m =>
      simp only [hl] at hmatch
      by_cases hd : q.dropLast = p
      · simp only [hd, if_true, Option.some.injEq] at hmatch
        subst hmatch
        have hqne : q ≠ [] := by
          intro h
          simp [h] at hl
        have hlast : q.getLast hqne = m := by
          rw [List.getLast?_eq_getLast _ hqne] at hl
          exact Option.some.inj hl
        have := List.dropLast_append_getLast hqne
        rw [hd, hlast] at this
        rw [this]
        exact hq
      · simp [hd] at hmatch
  · intro hmem
    exact ⟨p ++ [n], hmem, by simp⟩

/-! ## The index round trip -/

theorem Writer.Write_total (w : Writer) (p : List Byte) :
    (w.Write p).file ++ (w.Write p).buf = w.file ++ w.buf ++ p := by
  unfold Writer.Write
  split
  · simp
  · split
    · rename_i hbuf
      simp [hbuf]
    · have htd : p.take (defaultBufSize - w.buf.length) ++ p.drop (defaultBufSize - w.buf.length) = p :=
        List.take_append_drop _ _
      by_cases hq : (p.drop (defaultBufSize - w.buf.length)).length ≤ defaultBufSize
      · simp only [hq, if_true, List.append_assoc, htd]
      · simp only [hq, if_false, List.append_assoc, List.append_nil, htd]

theorem decodeLoop_nil (g : Gob) (s : g.DecState) (mb : Mailbox) :
    decodeLoop g s [] mb = (none, mb) := by
  rw [decodeLoop]
  split
  · rfl
  · rename_i h
    simp [Gob.Decode] at h
  · rename_i h
    simp [Gob.Decode] at h

theorem decodeLoop_value (g : Gob) (s s1 : g.DecState) (input rest : List Byte) (m : Message)
    (mb : Mailbox) (h : g.Decode s input = DecodeStep.value m rest s1) :
    decodeLoop g s input mb =
      decodeLoop g s1 rest { mb with messages := mb.messages ++ [Message.linkTo mb.path m] } := by
  rw [decodeLoop]
  split
  · rename_i h1
    rw [h] at h1
    cases h1
  · rename_i h1
    rw [h] at h1
    cases h1
  · rename_i h1
    rw [h] at h1
    cases h1
    rfl

theorem Gob.Decode_encoded (g : Gob) (s s1 : g.DecState) (bytes rest : List Byte) (m : Message)
    (hne : bytes ≠ [])
    (hdec : g.decode s (bytes ++ rest) = Except.ok (m, bytes.length - 1, s1)) :
    g.Decode s (bytes ++ rest) = DecodeStep.value m rest s1 := by
  cases bytes with
  | nil => exact absurd rfl hne
  | cons b bs =>
    simp only [List.cons_append, List.length_cons, Nat.add_sub_cancel] at hdec
    simp only [Gob.Decode, List.cons_append, hdec, List.drop_left]

/-- What the encode loop writes is a stream the decode loop reads back, record
by record, when encoder and decoder start in related states. -/
theorem encodeLoop_decodeLoop (g : Gob) (R : g.EncState → g.DecState → Prop)
    (hR : ∀ es ds m bytes es1, R es ds → g.encode es m = Except.ok (bytes, es1) →
      bytes ≠ [] ∧
      ∀ rest, ∃ ds1, g.decode ds (bytes ++ rest) = Except.ok (m.stored, bytes.length - 1, ds1) ∧
        R es1 ds1) :
    ∀ (msgs : List Message) (es : g.EncState) (w w1 : Writer),
      encodeLoop g es w msgs = (none, w1) →
      ∃ stream, w1.file ++ w1.buf = w.file ++ w.buf ++ stream ∧
        ∀ (ds : g.DecState) (mb : Mailbox), R es ds →
          decodeLoop g ds stream mb =
            (none, { mb with messages := mb.messages ++ msgs.map (Message.linkTo mb.path) }) := by
  intro msgs
  induction msgs with
  | nil =>
    intro es w w1 h
    simp only [encodeLoop, Prod.mk.injEq, true_and] at h
    subst h
    refine ⟨[], by simp, ?_⟩
    intro ds mb _
    rw [decodeLoop_nil]
    simp
  | cons m msgs ih =>
    intro es w w1 h
    rw [encodeLoop] at h
    cases henc : g.encode es m with
    | error e =>
      rw [henc] at h
      simp at h
    | ok r =>
      obtain ⟨bytes, es1⟩ := r
      rw [henc] at h
      simp only at h
      obtain ⟨stream, hstream, hloop⟩ := ih es1 (w.Write bytes) w1 h
      refine ⟨bytes ++ stream, ?_, ?_⟩
      · rw [hstream, Writer.Write_total]
        simp
      · intro ds mb hrel
        obtain ⟨hne, hdec⟩ := hR es ds m bytes es1 hrel henc
        obtain ⟨ds1, hd, hrel1⟩ := hdec stream
        rw [decodeLoop_value g ds ds1 (bytes ++ stream) stream m.stored mb
          (Gob.Decode_encoded g ds ds1 bytes stream m.stored hne hd)]
        rw [hloop ds1 _ hrel1]
        simp [Message.linkTo, Message.stored]

theorem osCreate_ok (fs fs1 : FS) (p : Path) (h : osCreate fs p = Except.ok fs1) :
    p ≠ [] ∧ fs.get p ≠ some Node.dir ∧ fs.get p.dropLast = some Node.dir ∧
      fs1 = fs.put p (Node.file []) := by
  unfold osCreate at h
  cases p with
  | nil => cases h
  | cons c q =>
    simp only at h
    split at h
    · cases h
    · rename_i hnd
      split at h
      · rename_i hparent
        cases h
        exact ⟨by simp, fun hd => hnd hd, hparent, rfl⟩
      · cases h
      · cases h

/-- A successful `writeIndex` of a mailbox with messages, step by step. -/
theorem writeIndex_ok_of_ne_nil (g : Gob) (mb : Mailbox) (fs fs1 : FS)
    (hne : mb.messages ≠ []) (h : mb.writeIndex g fs = (none, fs1)) :
    ∃ fsd fsc w, mb.createDir fs = (none, fsd) ∧ osCreate fsd mb.indexPath = Except.ok fsc ∧
      encodeLoop g g.newEncoder { file := [], buf := [] } mb.messages = (none, w) ∧
      fs1 = fsc.put mb.indexPath (Node.file (w.file ++ w.buf)) := by
  have hlen : mb.messages.length > 0 := List.length_pos.mpr hne
  unfold Mailbox.writeIndex at h
  simp only [hlen, if_true] at h
  cases hc : mb.createDir fs with
  | mk err fsd =>
    rw [hc] at h
    cases err with
    | some e => simp at h
    | none =>
      simp only at h
      cases hcr : osCreate fsd mb.indexPath with
      | error e =>
        rw [hcr] at h
        simp at h
      | ok fsc =>
        rw [hcr] at h
        simp only at h
        cases hl : encodeLoop g g.newEncoder { file := [], buf := [] } mb.messages with
        | mk cause w =>
          rw [hl] at h
          cases cause with
          | some c => simp at h
          | none =>
            simp only [Prod.mk.injEq, true_and] at h
            exact ⟨fsd, fsc, w, rfl, hcr, rfl, by rw [← h]; rfl⟩

/-- C1. Round trip of the index.  With a gob codec that reads back what it
wrote, when `writeIndex` succeeds on a handle holding a non-empty list of
records, `GetMessages` on a handle for the same index path that is not yet
loaded, on the file system as `writeIndex` left it, succeeds and returns the
same records in the same order, each linked to the reading handle; when the
records were owned by the mailbox at that path, the result is exactly the
list that was written. -/
theorem index_round_trip (g : Gob) (hg : g.Lawful) (mb fresh : Mailbox) (fs fs1 : FS)
    (hne : mb.messages ≠ [])
    (hwrite : mb.writeIndex g fs = (none, fs1))
    (hindex : fresh.indexPath = mb.indexPath)
    (hfresh : fresh.indexLoaded = false) :
    fresh.GetMessages g fs1 =
      (Except.ok (mb.messages.map (Message.linkTo fresh.path)),
        { fresh with indexLoaded := true,
                     messages := mb.messages.map (Message.linkTo fresh.path) }, fs1) ∧
    ((∀ m ∈ mb.messages, m.mailbox = some fresh.path) →
      (fresh.GetMessages g fs1).1 = Except.ok mb.messages) := by
  obtain ⟨R, hR0, hR⟩ := hg
  obtain ⟨fsd, fsc, w, _, hcreate, hloop, hfs1⟩ := writeIndex_ok_of_ne_nil g mb fs fs1 hne hwrite
  obtain ⟨hpne, _, _, _⟩ := osCreate_ok fsd fsc mb.indexPath hcreate
  obtain ⟨stream, hstream, hdec⟩ :=
    encodeLoop_decodeLoop g R hR mb.messages g.newEncoder { file := [], buf := [] } w hloop
  simp only [List.append_nil, List.nil_append] at hstream
  have hget : fs1.get fresh.indexPath = some (Node.file stream) := by
    rw [hindex, hfs1, FS.get_put _ _ _ _ hpne, hstream]
    simp
  obtain ⟨store, name, dirName, path, loaded, indexPath, messages⟩ := fresh
  simp only at hfresh hget
  subst hfresh
  have hd := hdec g.newDecoder
    { store := store, name := name, dirName := dirName, path := path, indexLoaded := false,
      indexPath := indexPath, messages := [] } hR0
  simp only [List.nil_append] at hd
  have hmain : Mailbox.GetMessages g
      { store := store, name := name, dirName := dirName, path := path, indexLoaded := false,
        indexPath := indexPath, messages := messages } fs1 =
      (Except.ok (mb.messages.map (Message.linkTo path)),
        { store := store, name := name, dirName := dirName, path := path, indexLoaded := true,
          indexPath := indexPath, messages := mb.messages.map (Message.linkTo path) }, fs1) := by
    simp [Mailbox.GetMessages, Mailbox.readIndex, osStat, osOpen, hget, hd]
  refine ⟨hmain, ?_⟩
  intro howned
  rw [hmain]
  simp only [Except.ok.injEq]
  have : ∀ m ∈ mb.messages, Message.linkTo path m = m := by
    intro m hm
    have := howned m hm
    simp only at this
    cases m
    simp only [Message.linkTo, Message.mk.injEq, and_true]
    simp only at this
    exact this.symm
  calc mb.messages.map (Message.linkTo path) = mb.messages.map id := List.map_congr_left this
    _ = mb.messages := List.map_id _

theorem tableGob_lawful (table : List Message) : (tableGob table).Lawful := by
  refine ⟨fun _ _ => True, trivial, ?_⟩
  intro es ds m bytes es1 _ henc
  simp only [tableGob] at henc
  split at henc
  · rename_i hi
    cases henc
    refine ⟨by simp, fun rest => ⟨(), ?_, trivial⟩⟩
    have hget : table[List.indexOf m.stored table]? = some m.stored := by
      rw [List.getElem?_eq_getElem hi.1]
      simp
    simp [tableGob, hget]
  · cases henc

/-- Two records written to an empty disk are read back by a fresh handle. -/
theorem index_round_trip_witness :
    (sampleMailbox true [sampleMessage "m1", sampleMessage "m2"]).writeIndex sampleGob [] =
      (none, writtenDisk [0, 1]) ∧
    ((sampleMailbox false []).GetMessages sampleGob (writtenDisk [0, 1])).1 =
      Except.ok [sampleMessage "m1", sampleMessage "m2"] :=
  ⟨by decide,
   (index_round_trip sampleGob (tableGob_lawful sampleTable)
      (sampleMailbox true [sampleMessage "m1", sampleMessage "m2"]) (sampleMailbox false [])
      [] (writtenDisk [0, 1]) (by simp [sampleMailbox]) (by decide) rfl rfl).2
      (by
        intro m hm
        simp only [sampleMailbox, List.mem_cons, List.mem_singleton, List.not_mem_nil,
          or_false] at hm
        rcases hm with rfl | rfl <;> rfl)⟩

/-! ## The directory life cycle -/

theorem removeDirIfEmpty_eq (fs : FS) (p : Path) :
    removeDirIfEmpty fs p =
      if p ≠ [] ∧ fs.get p = some Node.dir ∧ fs.names p = [] then (true, fs.erase p)
      else (false, fs) := by
  unfold removeDirIfEmpty readdirnames
  cases hg : fs.get p with
  | none => simp
  | some n =>
    cases n with
    | file data => simp
    | dir =>
      simp only
      by_cases hn : fs.names p = []
      · cases p with
        | nil => simp [hn, osRemove]
        | cons c q => simp [hn, osRemove, hg]
      · have hlen : (fs.names p).length > 0 := List.length_pos.mpr hn
        simp [hn, hlen]

theorem osRemoveAll_ok (fs fs1 : FS) (p : Path) (h : osRemoveAll fs p = Except.ok fs1) :
    fs1 = fs.filter (fun e => !(p.isPrefixOf e.1)) := by
  unfold osRemoveAll at h
  split at h
  · cases h
  · cases h
    rfl

theorem osRemoveAll_get (fs fs1 : FS) (p q : Path) (h : osRemoveAll fs p = Except.ok fs1)
    (hq : q ≠ []) : fs1.get q = if p <+: q then none else fs.get q := by
  rw [osRemoveAll_ok fs fs1 p h]
  have := FS.get_filter fs (fun x => !(p.isPrefixOf x)) q hq
  rw [this]
  by_cases hp : p <+: q
  · have : p.isPrefixOf q = true := List.isPrefixOf_iff_prefix.mpr hp
    simp [hp, this]
  · have : p.isPrefixOf q = false := by
      rw [← Bool.not_eq_true]
      exact fun h => hp (List.isPrefixOf_iff_prefix.mp h)
    simp [hp, this]

/-- What `removeDir` leaves behind when it succeeds: the tree without the
mailbox directory, without the parent `dir` when that was left empty, and
without the parent of the parent when that was left empty in turn. -/
theorem removeDir_ok (mb : Mailbox) (fs fs2 : FS) (h : mb.removeDir fs = (none, fs2)) :
    ∃ fs1, osRemoveAll fs mb.path = Except.ok fs1 ∧
      fs2 = (if mb.path.dropLast ≠ [] ∧ fs1.get mb.path.dropLast = some Node.dir ∧
                fs1.names mb.path.dropLast = [] then
              (removeDirIfEmpty (fs1.erase mb.path.dropLast) mb.path.dropLast.dropLast).2
            else fs1) := by
  unfold Mailbox.removeDir at h
  cases hr : osRemoveAll fs mb.path with
  | error e =>
    rw [hr] at h
    simp at h
  | ok fs1 =>
    rw [hr] at h
    refine ⟨fs1, rfl, ?_⟩
    simp only at h
    rw [removeDirIfEmpty_eq] at h
    by_cases hc : mb.path.dropLast ≠ [] ∧ fs1.get mb.path.dropLast = some Node.dir ∧
        fs1.names mb.path.dropLast = []
    · rw [if_pos hc] at h
      simp only [Prod.mk.injEq, true_and] at h
      rw [if_pos hc]
      exact h.symm
    · rw [if_neg hc] at h
      simp only [Prod.mk.injEq, true_and] at h
      rw [if_neg hc]
      exact h.symm

theorem removeDirIfEmpty_get_none (fs : FS) (p q : Path) (hq : q ≠ [])
    (h : fs.get q = none) : (removeDirIfEmpty fs p).2.get q = none := by
  rw [removeDirIfEmpty_eq]
  split
  · simp only
    rw [FS.get_erase _ _ _ hq]
    split
    · rfl
    · exact h
  · exact h

/-- After a successful `removeDir` nothing is left at or below the mailbox
path. -/
theorem removeDir_get_below (mb : Mailbox) (fs fs2 : FS) (h : mb.removeDir fs = (none, fs2))
    (q : Path) (hq : q ≠ []) (hbelow : mb.path <+: q) : fs2.get q = none := by
  obtain ⟨fs1, hrm, hfs2⟩ := removeDir_ok mb fs fs2 h
  have h1 : fs1.get q = none := by
    rw [osRemoveAll_get fs fs1 mb.path q hrm hq, if_pos hbelow]
  rw [hfs2]
  split
  · apply removeDirIfEmpty_get_none _ _ _ hq
    rw [FS.get_erase _ _ _ hq]
    split
    · rfl
    · exact h1
  · exact h1

theorem Mailbox.Resolved.path_ne_nil {mb : Mailbox} (h : mb.Resolved) : mb.path ≠ [] := by
  obtain ⟨⟨l1, l2, hp⟩, _⟩ := h
  rw [hp]
  simp

theorem writeIndex_nil (g : Gob) (mb : Mailbox) (fs : FS) (hnil : mb.messages = []) :
    mb.writeIndex g fs = mb.removeDir fs := by
  simp [Mailbox.writeIndex, hnil]

theorem removeDir_succeeds (mb : Mailbox) (fs : FS) (h : fs.fileAbove mb.path = false) :
    ∃ fs2, mb.removeDir fs = (none, fs2) := by
  unfold Mailbox.removeDir osRemoveAll
  simp only [h, Bool.false_eq_true, if_false]
  split
  · exact ⟨_, rfl⟩
  · exact ⟨_, rfl⟩

/-- C6. For a handle made by the store: after a `writeIndex` that returns
without error the index file exists exactly when the handle has at least one
message, and with no messages neither the index file nor the mailbox
directory exists.  The same holds after a `Purge` that returns without error,
which leaves the handle empty; and `Purge` returns without error whenever no
regular file lies on the way to the mailbox path, in particular on a mailbox
that was already empty and had no directory. -/
theorem index_file_iff_messages (g : Gob) (mb : Mailbox) (fs : FS) (hres : mb.Resolved) :
    (∀ fs1, mb.writeIndex g fs = (none, fs1) →
      ((∃ data, fs1.get mb.indexPath = some (Node.file data)) ↔ mb.messages ≠ []) ∧
      (mb.messages = [] → fs1.get mb.indexPath = none ∧ fs1.get mb.path = none)) ∧
    (∀ mb2 fs2, mb.Purge g fs = (none, mb2, fs2) →
      mb2.messages = [] ∧ fs2.get mb.indexPath = none ∧ fs2.get mb.path = none) ∧
    (fs.fileAbove mb.path = false → ∃ mb2 fs2, mb.Purge g fs = (none, mb2, fs2)) := by
  have hpath := hres.path_ne_nil
  have hidx := hres.2
  have hgone : ∀ (m : Mailbox) (fs2 : FS), m.path = mb.path → m.removeDir fs = (none, fs2) →
      fs2.get mb.indexPath = none ∧ fs2.get mb.path = none := by
    intro m fs2 hm hrm
    constructor
    · apply removeDir_get_below m fs fs2 hrm
      · rw [hidx]; simp
      · rw [hm, hidx]; exact List.prefix_append _ _
    · apply removeDir_get_below m fs fs2 hrm _ hpath
      rw [hm]
  refine ⟨?_, ?_, ?_⟩
  · intro fs1 hwrite
    by_cases hnil : mb.messages = []
    · rw [writeIndex_nil g mb fs hnil] at hwrite
      have hg := hgone mb fs1 rfl hwrite
      refine ⟨?_, fun _ => hg⟩
      constructor
      · rintro ⟨data, hdata⟩
        rw [hg.1] at hdata
        cases hdata
      · intro h
        exact absurd hnil h
    · refine ⟨?_, fun h => absurd h hnil⟩
      obtain ⟨fsd, fsc, w, _, hcreate, _, hfs1⟩ :=
        writeIndex_ok_of_ne_nil g mb fs fs1 hnil hwrite
      obtain ⟨hpne, _, _, _⟩ := osCreate_ok fsd fsc mb.indexPath hcreate
      constructor
      · intro _
        exact hnil
      · intro _
        refine ⟨w.file ++ w.buf, ?_⟩
        rw [hfs1, FS.get_put _ _ _ _ hpne]
        simp
  · intro mb2 fs2 hpurge
    unfold Mailbox.Purge at hpurge
    simp only [Prod.mk.injEq] at hpurge
    obtain ⟨herr, hmb2, hfs2⟩ := hpurge
    have hw : Mailbox.writeIndex g { mb with messages := [] } fs = (none, fs2) := by
      rw [← herr, ← hfs2]
    rw [writeIndex_nil g _ fs rfl] at hw
    have hg := hgone { mb with messages := [] } fs2 rfl hw
    exact ⟨by rw [← hmb2], hg⟩
  · intro hno
    obtain ⟨fs2, hrm⟩ := removeDir_succeeds { mb with messages := [] } fs hno
    refine ⟨{ mb with messages := [] }, fs2, ?_⟩
    unfold Mailbox.Purge
    simp only
    rw [writeIndex_nil g _ fs rfl, hrm]

/-- The sample mailbox: writing two messages leaves an index file, purging
leaves neither file nor directory, and purging again still succeeds. -/
theorem index_file_iff_messages_witness :
    (sampleMailbox true [sampleMessage "m1", sampleMessage "m2"]).Resolved ∧
    (∃ data, (writtenDisk [0, 1]).get (samplePath ++ [indexFileName]) =
      some (Node.file data)) ∧
    (sampleMailbox true [sampleMessage "m1"]).Purge sampleGob (writtenDisk [0, 1]) =
      (none, sampleMailbox true [], [(["data", "mail"], Node.dir), (["data"], Node.dir)]) ∧
    (sampleMailbox true []).Purge sampleGob [] = (none, sampleMailbox true [], []) :=
  ⟨⟨⟨"abc", "abcdef", rfl⟩, rfl⟩,
   ((index_file_iff_messages sampleGob
      (sampleMailbox true [sampleMessage "m1", sampleMessage "m2"]) []
      ⟨⟨"abc", "abcdef", rfl⟩, rfl⟩).1 (writtenDisk [0, 1]) (by decide)).1.mpr
      (by simp [sampleMailbox]),
   by decide, by decide⟩

theorem FS.names_eq_nil_iff (fs : FS) (p : Path) :
    fs.names p = [] ↔ ∀ n, fs.get (p ++ [n]) = none := by
  rw [List.eq_nil_iff_forall_not_mem]
  constructor
  · intro h n
    by_contra hne
    exact h n ((FS.mem_names fs p n).mpr hne)
  · intro h n hn
    exact (FS.mem_names fs p n).mp hn (h n)

theorem FS.WF.parent_dir {fs : FS} (hwf : fs.WF) (q : Path) (hq : q ≠ [])
    (hget : fs.get q ≠ none) : fs.get q.dropLast = some Node.dir := by
  have hmem := (FS.get_isSome_iff fs q hq).mp hget
  obtain ⟨e, he, heq⟩ := List.mem_map.mp hmem
  have := (hwf.2 e he).2
  rw [heq] at this
  exact this

theorem removeDirIfEmpty_snd (fs : FS) (p : Path) (hp : p ≠ [])
    (hdir : fs.get p = some Node.dir) :
    ((∀ n, fs.get (p ++ [n]) = none) → (removeDirIfEmpty fs p).2 = fs.erase p) ∧
    (¬ (∀ n, fs.get (p ++ [n]) = none) → (removeDirIfEmpty fs p).2 = fs) := by
  rw [removeDirIfEmpty_eq]
  constructor
  · intro h
    rw [if_pos ⟨hp, hdir, (FS.names_eq_nil_iff fs p).mpr h⟩]
  · intro h
    rw [if_neg]
    rintro ⟨_, _, hn⟩
    exact h ((FS.names_eq_nil_iff fs p).mp hn)

theorem prefix_of_length_eq {p q : Path} (h : p <+: q) (hlen : p.length = q.length) : p = q :=
  List.IsPrefix.eq_of_length h hlen

theorem not_prefix_of_length_lt {p q : Path} (hlen : q.length < p.length) : ¬ p <+: q := by
  intro h
  have := List.IsPrefix.length_le h
  omega

theorem dropLast_three (r : Path) (a b c : String) :
    (r ++ [a, b, c]).dropLast = r ++ [a, b] := by
  have : r ++ [a, b, c] = (r ++ [a, b]) ++ [c] := by simp
  rw [this, List.dropLast_concat]

theorem dropLast_two (r : Path) (a b : String) : (r ++ [a, b]).dropLast = r ++ [a] := by
  have : r ++ [a, b] = (r ++ [a]) ++ [b] := by simp
  rw [this, List.dropLast_concat]

theorem prefix_three_iff (r : Path) (a b c n : String) :
    r ++ [a, b, c] <+: r ++ [a, b, n] ↔ n = c := by
  constructor
  · intro h
    have := prefix_of_length_eq h (by simp)
    simpa using this.symm
  · intro h
    rw [h]

/-- The three shapes of the tree after a successful `removeDir` of a mailbox
that is on disk: only the mailbox directory is gone; the second shard level
is gone as well, having no other entry; or both shard levels are gone. -/
theorem removeDir_shape (mb : Mailbox) (fs fs2 : FS) (r : Path) (l1 l2 d : String)
    (hwf : fs.WF) (hpath : mb.path = r ++ [l1, l2, d])
    (hdisk : fs.get mb.path = some Node.dir)
    (h : mb.removeDir fs = (none, fs2)) :
    ∃ fs1, (∀ q, q ≠ [] → fs1.get q = if mb.path <+: q then none else fs.get q) ∧
      ((¬ (∀ n, n ≠ d → fs.get (r ++ [l1, l2, n]) = none) ∧ fs2 = fs1) ∨
       ((∀ n, n ≠ d → fs.get (r ++ [l1, l2, n]) = none) ∧
          ¬ (∀ n, n ≠ l2 → fs.get (r ++ [l1, n]) = none) ∧ fs2 = fs1.erase (r ++ [l1, l2])) ∨
       ((∀ n, n ≠ d → fs.get (r ++ [l1, l2, n]) = none) ∧
          (∀ n, n ≠ l2 → fs.get (r ++ [l1, n]) = none) ∧
          fs2 = (fs1.erase (r ++ [l1, l2])).erase (r ++ [l1]))) := by
  obtain ⟨fs1, hrm, hfs2⟩ := removeDir_ok mb fs fs2 h
  have hget1 : ∀ q, q ≠ [] → fs1.get q = if mb.path <+: q then none else fs.get q :=
    fun q hq => osRemoveAll_get fs fs1 mb.path q hrm hq
  refine ⟨fs1, hget1, ?_⟩
  have hd2 : mb.path.dropLast = r ++ [l1, l2] := by rw [hpath, dropLast_three]
  have hd1 : (r ++ [l1, l2]).dropLast = r ++ [l1] := dropLast_two r l1 l2
  have hs2 : fs.get (r ++ [l1, l2]) = some Node.dir := by
    have := hwf.parent_dir mb.path (by rw [hpath]; simp) (by rw [hdisk]; simp)
    rwa [hd2] at this
  have hs1 : fs.get (r ++ [l1]) = some Node.dir := by
    have := hwf.parent_dir (r ++ [l1, l2]) (by simp) (by rw [hs2]; simp)
    rwa [hd1] at this
  have hnp2 : ¬ mb.path <+: r ++ [l1, l2] := by
    apply not_prefix_of_length_lt
    rw [hpath]
    simp
  have hnp1 : ¬ mb.path <+: r ++ [l1] := by
    apply not_prefix_of_length_lt
    rw [hpath]
    simp
  have h1s2 : fs1.get (r ++ [l1, l2]) = some Node.dir := by
    rw [hget1 _ (by simp), if_neg hnp2, hs2]
  have h1s1 : fs1.get (r ++ [l1]) = some Node.dir := by
    rw [hget1 _ (by simp), if_neg hnp1, hs1]
  have hE2 : (∀ n, fs1.get ((r ++ [l1, l2]) ++ [n]) = none) ↔
      (∀ n, n ≠ d → fs.get (r ++ [l1, l2, n]) = none) := by
    have hrw : ∀ n, (r ++ [l1, l2]) ++ [n] = r ++ [l1, l2, n] := fun n => by simp
    constructor
    · intro hall n hn
      have := hall n
      rw [hrw, hget1 _ (by simp), hpath, if_neg] at this
      · exact this
      · rw [prefix_three_iff]
        exact hn
    · intro hall n
      rw [hrw, hget1 _ (by simp), hpath]
      by_cases hn : n = d
      · rw [if_pos ((prefix_three_iff r l1 l2 d n).mpr hn)]
      · rw [if_neg (fun hp => hn ((prefix_three_iff r l1 l2 d n).mp hp))]
        exact hall n hn
  rw [hd2, hd1] at hfs2
  obtain ⟨hrem, hkeep⟩ := removeDirIfEmpty_snd fs1 (r ++ [l1, l2]) (by simp) h1s2
  by_cases hempty2 : ∀ n, n ≠ d → fs.get (r ++ [l1, l2, n]) = none
  · have hc : r ++ [l1, l2] ≠ [] ∧ fs1.get (r ++ [l1, l2]) = some Node.dir ∧
        fs1.names (r ++ [l1, l2]) = [] :=
      ⟨by simp, h1s2, (FS.names_eq_nil_iff _ _).mpr (hE2.mpr hempty2)⟩
    rw [if_pos hc] at hfs2
    have he1 : (fs1.erase (r ++ [l1, l2])).get (r ++ [l1]) = some Node.dir := by
      rw [FS.get_erase _ _ _ (by simp), if_neg (by simp), h1s1]
    have hE1 : (∀ n, (fs1.erase (r ++ [l1, l2])).get ((r ++ [l1]) ++ [n]) = none) ↔
        (∀ n, n ≠ l2 → fs.get (r ++ [l1, n]) = none) := by
      have hrw : ∀ n, (r ++ [l1]) ++ [n] = r ++ [l1, n] := fun n => by simp
      have hnp : ∀ n, ¬ mb.path <+: r ++ [l1, n] := by
        intro n
        apply not_prefix_of_length_lt
        rw [hpath]
        simp
      constructor
      · intro hall n hn
        have := hall n
        rw [hrw, FS.get_erase _ _ _ (by simp), if_neg (by simpa using hn),
          hget1 _ (by simp), if_neg (hnp n)] at this
        exact this
      · intro hall n
        rw [hrw, FS.get_erase _ _ _ (by simp)]
        by_cases hn : n = l2
        · rw [if_pos (by rw [hn])]
        · rw [if_neg (by simpa using hn), hget1 _ (by simp), if_neg (hnp n)]
          exact hall n hn
    obtain ⟨hrem1, hkeep1⟩ :=
      removeDirIfEmpty_snd (fs1.erase (r ++ [l1, l2])) (r ++ [l1]) (by simp) he1
    by_cases hempty1 : ∀ n, n ≠ l2 → fs.get (r ++ [l1, n]) = none
    · right; right
      exact ⟨hempty2, hempty1, by rw [hfs2, hrem1 (hE1.mpr hempty1)]⟩
    · right; left
      exact ⟨hempty2, hempty1, by rw [hfs2, hkeep1 (fun hh => hempty1 (hE1.mp hh))]⟩
  · left
    refine ⟨hempty2, ?_⟩
    rw [hfs2, if_neg]
    rintro ⟨_, _, hn⟩
    exact hempty2 (hE2.mp ((FS.names_eq_nil_iff _ _).mp hn))

theorem Purge_ok (g : Gob) (mb mb2 : Mailbox) (fs fs2 : FS)
    (h : mb.Purge g fs = (none, mb2, fs2)) :
    mb2 = { mb with messages := [] } ∧
      Mailbox.removeDir { mb with messages := [] } fs = (none, fs2) := by
  unfold Mailbox.Purge at h
  simp only [Prod.mk.injEq] at h
  obtain ⟨herr, hmb2, hfs2⟩ := h
  refine ⟨hmb2.symm, ?_⟩
  rw [← writeIndex_nil g _ fs rfl, ← herr, ← hfs2]

/-- C7. The purge cascade is bounded to two levels.  For a mailbox at
`mailRoot/l1/l2/leaf` whose directory is on disk, a successful `Purge`
removes the leaf directory and everything in it, removes the `l2` directory
exactly when it holds no entry other than the leaf, removes the `l1`
directory exactly when `l2` was removed and `l1` holds no entry other than
`l2`, and leaves every other path, the mail root and the directories of other
mailboxes among them, as it was. -/
theorem purge_cascade (g : Gob) (mb mb2 : Mailbox) (fs fs2 : FS) (l1 l2 : String)
    (hwf : fs.WF)
    (hpath : mb.path = mb.store.mailPath ++ [l1, l2, mb.dirName])
    (hdisk : fs.get mb.path = some Node.dir)
    (hpurge : mb.Purge g fs = (none, mb2, fs2)) :
    (∀ q, mb.path <+: q → fs2.get q = none) ∧
    (fs2.get (mb.store.mailPath ++ [l1, l2]) = none ↔
      ∀ n, n ≠ mb.dirName → fs.get (mb.store.mailPath ++ [l1, l2, n]) = none) ∧
    (fs2.get (mb.store.mailPath ++ [l1, l2]) = none ∨
      fs2.get (mb.store.mailPath ++ [l1, l2]) = some Node.dir) ∧
    (fs2.get (mb.store.mailPath ++ [l1]) = none ↔
      (∀ n, n ≠ mb.dirName → fs.get (mb.store.mailPath ++ [l1, l2, n]) = none) ∧
      (∀ n, n ≠ l2 → fs.get (mb.store.mailPath ++ [l1, n]) = none)) ∧
    (fs2.get (mb.store.mailPath ++ [l1]) = none ∨
      fs2.get (mb.store.mailPath ++ [l1]) = some Node.dir) ∧
    (∀ q, ¬ mb.path <+: q → q ≠ mb.store.mailPath ++ [l1, l2] →
      q ≠ mb.store.mailPath ++ [l1] → fs2.get q = fs.get q) ∧
    fs2.get mb.store.mailPath = fs.get mb.store.mailPath := by
  obtain ⟨_, hrm⟩ := Purge_ok g mb mb2 fs fs2 hpurge
  obtain ⟨fs1, hget1, hshape⟩ := removeDir_shape { mb with messages := [] } fs fs2
    mb.store.mailPath l1 l2 mb.dirName hwf hpath hdisk hrm
  simp only at hget1
  have hne : mb.path ≠ [] := by rw [hpath]; simp
  have hd2 : mb.path.dropLast = mb.store.mailPath ++ [l1, l2] := by rw [hpath, dropLast_three]
  have hs2 : fs.get (mb.store.mailPath ++ [l1, l2]) = some Node.dir := by
    have := hwf.parent_dir mb.path hne (by rw [hdisk]; simp)
    rwa [hd2] at this
  have hs1 : fs.get (mb.store.mailPath ++ [l1]) = some Node.dir := by
    have := hwf.parent_dir (mb.store.mailPath ++ [l1, l2]) (by simp) (by rw [hs2]; simp)
    rwa [dropLast_two] at this
  have hnp2 : ¬ mb.path <+: mb.store.mailPath ++ [l1, l2] := by
    apply not_prefix_of_length_lt
    rw [hpath]
    simp
  have hnp1 : ¬ mb.path <+: mb.store.mailPath ++ [l1] := by
    apply not_prefix_of_length_lt
    rw [hpath]
    simp
  have hnp0 : ¬ mb.path <+: mb.store.mailPath := by
    apply not_prefix_of_length_lt
    rw [hpath]
    simp
  have h12 : mb.store.mailPath ++ [l1] ≠ mb.store.mailPath ++ [l1, l2] := by simp
  have h21 : mb.store.mailPath ++ [l1, l2] ≠ mb.store.mailPath ++ [l1] := by simp
  -- the lookup in each of the three shapes
  have hlook : ∀ q, q ≠ [] →
      fs2.get q = fs1.get q ∨
      (q = mb.store.mailPath ++ [l1, l2] ∧ fs2.get q = none) ∨
      (q = mb.store.mailPath ++ [l1] ∧ fs2.get q = none) := by
    intro q hq
    rcases hshape with ⟨_, hfs⟩ | ⟨_, _, hfs⟩ | ⟨_, _, hfs⟩
    · left; rw [hfs]
    · rw [hfs, FS.get_erase _ _ _ hq]
      by_cases hq2 : q = mb.store.mailPath ++ [l1, l2]
      · right; left; exact ⟨hq2, by rw [if_pos hq2]⟩
      · left; rw [if_neg hq2]
    · rw [hfs, FS.get_erase _ _ _ hq, FS.get_erase _ _ _ hq]
      by_cases hq1 : q = mb.store.mailPath ++ [l1]
      · right; right; exact ⟨hq1, by rw [if_pos hq1]⟩
      · rw [if_neg hq1]
        by_cases hq2 : q = mb.store.mailPath ++ [l1, l2]
        · right; left; exact ⟨hq2, by rw [if_pos hq2]⟩
        · left; rw [if_neg hq2]
  have hframe : ∀ q, ¬ mb.path <+: q → q ≠ mb.store.mailPath ++ [l1, l2] →
      q ≠ mb.store.mailPath ++ [l1] → fs2.get q = fs.get q := by
    intro q hnp hq2 hq1
    by_cases hq : q = []
    · subst hq
      rfl
    · rcases hlook q hq with h | ⟨h, _⟩ | ⟨h, _⟩
      · rw [h, hget1 q hq, if_neg hnp]
      · exact absurd h hq2
      · exact absurd h hq1
  refine ⟨?_, ?_, ?_, ?_, ?_, hframe, ?_⟩
  · intro q hq
    have hqne : q ≠ [] := by
      intro h
      rw [h] at hq
      exact hne (List.prefix_nil.mp hq)
    rcases hlook q hqne with h | ⟨_, h⟩ | ⟨_, h⟩
    · rw [h, hget1 q hqne, if_pos hq]
    · exact h
    · exact h
  · rcases hshape with ⟨hE2, hfs⟩ | ⟨hE2, _, hfs⟩ | ⟨hE2, _, hfs⟩
    · rw [hfs, hget1 _ (by simp), if_neg hnp2, hs2]
      simp only [reduceCtorEq, false_iff]
      exact hE2
    · rw [hfs, FS.get_erase _ _ _ (by simp), if_pos rfl]
      simp only [true_iff]
      exact hE2
    · rw [hfs, FS.get_erase _ _ _ (by simp), if_neg h21, FS.get_erase _ _ _ (by simp),
        if_pos rfl]
      simp only [true_iff]
      exact hE2
  · rcases hlook (mb.store.mailPath ++ [l1, l2]) (by simp) with h | ⟨_, h⟩ | ⟨_, h⟩
    · right; rw [h, hget1 _ (by simp), if_neg hnp2, hs2]
    · left; exact h
    · left; exact h
  · rcases hshape with ⟨hE2, hfs⟩ | ⟨hE2, hE1, hfs⟩ | ⟨hE2, hE1, hfs⟩
    · rw [hfs, hget1 _ (by simp), if_neg hnp1, hs1]
      simp only [reduceCtorEq, false_iff]
      exact fun h => hE2 h.1
    · rw [hfs, FS.get_erase _ _ _ (by simp), if_neg h12, hget1 _ (by simp), if_neg hnp1, hs1]
      simp only [reduceCtorEq, false_iff]
      exact fun h => hE1 h.2
    · rw [hfs, FS.get_erase _ _ _ (by simp), if_pos rfl]
      simp only [true_iff]
      exact ⟨hE2, hE1⟩
  · rcases hlook (mb.store.mailPath ++ [l1]) (by simp) with h | ⟨_, h⟩ | ⟨_, h⟩
    · right; rw [h, hget1 _ (by simp), if_neg hnp1, hs1]
    · left; exact h
    · left; exact h
  · apply hframe _ hnp0
    · intro h
      have := congrArg List.length h
      simp at this
    · intro h
      have := congrArg List.length h
      simp at this

/-- Purging the sample mailbox next to a second mailbox under the same first
shard level: the leaf is gone, the first shard level stays, the other mailbox
and the mail root are untouched. -/
theorem purge_cascade_witness :
    twoBoxDisk.WF ∧
    (sampleMailbox true [sampleMessage "m1"]).Purge sampleGob twoBoxDisk =
      (none, sampleMailbox true [], otherBoxDisk) ∧
    otherBoxDisk.get samplePath = none ∧
    otherBoxDisk.get ["data", "mail", "abc"] ≠ none ∧
    otherBoxDisk.get ["data", "mail", "abc", "abc999", "abc9990000"] =
      twoBoxDisk.get ["data", "mail", "abc", "abc999", "abc9990000"] :=
  ⟨by decide, by decide,
   (purge_cascade sampleGob (sampleMailbox true [sampleMessage "m1"]) (sampleMailbox true [])
      twoBoxDisk otherBoxDisk "abc" "abcdef" (by decide) rfl (by decide) (by decide)).1
      samplePath (List.prefix_refl _),
   fun h =>
    absurd
      (((purge_cascade sampleGob (sampleMailbox true [sampleMessage "m1"])
        (sampleMailbox true []) twoBoxDisk otherBoxDisk "abc" "abcdef" (by decide) rfl
        (by decide) (by decide)).2.2.2.1.mp h).2 "abc999" (by decide))
      (by decide),
   (purge_cascade sampleGob (sampleMailbox true [sampleMessage "m1"]) (sampleMailbox true [])
      twoBoxDisk otherBoxDisk "abc" "abcdef" (by decide) rfl (by decide) (by decide)).2.2.2.2.2.1
      ["data", "mail", "abc", "abc999", "abc9990000"] (by decide) (by decide) (by decide)⟩

/-! ## Well-formed file systems -/

theorem dropLast_ne_self (p : Path) (hp : p ≠ []) : p.dropLast ≠ p := by
  intro h
  have := congrArg List.length h
  rw [List.length_dropLast] at this
  have : 0 < p.length := List.length_pos.mpr hp
  omega

theorem FS.WF.put {fs : FS} (hwf : fs.WF) (p : Path) (n : Node) (hp : p ≠ [])
    (hparent : fs.get p.dropLast = some Node.dir)
    (hkind : n = Node.dir ∨ fs.get p ≠ some Node.dir) : (fs.put p n).WF := by
  constructor
  · simp only [FS.put, FS.erase, List.map_cons, List.nodup_cons]
    constructor
    · intro hmem
      obtain ⟨e, he, hep⟩ := List.mem_map.mp hmem
      have := (List.mem_filter.mp he).2
      simp only [ne_eq, decide_not, Bool.not_eq_true', decide_eq_false_iff_not] at this
      exact this hep
    · exact (hwf.1.sublist (List.Sublist.map _ (List.filter_sublist _)))
  · intro e he
    have hcases : e = (p, n) ∨ (e ∈ fs ∧ e.1 ≠ p) := by
      simp only [FS.put, FS.erase, List.mem_cons, List.mem_filter, ne_eq, decide_not,
        Bool.not_eq_true', decide_eq_false_iff_not] at he
      exact he
    rcases hcases with rfl | ⟨hmem, _⟩
    · refine ⟨hp, ?_⟩
      rw [FS.get_put _ _ _ _ hp, if_neg (dropLast_ne_self p hp)]
      exact hparent
    · obtain ⟨hne, hpar⟩ := hwf.2 e hmem
      refine ⟨hne, ?_⟩
      rw [FS.get_put _ _ _ _ hp]
      by_cases hd : e.1.dropLast = p
      · rw [if_pos hd]
        rw [hd] at hpar
        rcases hkind with rfl | hk
        · rfl
        · exact absurd hpar hk
      · rw [if_neg hd]
        exact hpar

theorem osMkdir_ok (fs fs1 : FS) (p : Path) (h : osMkdir fs p = Except.ok fs1) :
    fs.get p = none ∧ fs.get p.dropLast = some Node.dir ∧ fs1 = fs.put p Node.dir := by
  unfold osMkdir at h
  split at h
  · cases h
  · rename_i hnone
    split at h
    · rename_i hpar
      cases h
      exact ⟨hnone, hpar, rfl⟩
    · cases h
    · cases h

theorem osMkdir_WF (fs fs1 : FS) (p : Path) (hwf : fs.WF) (h : osMkdir fs p = Except.ok fs1) :
    fs1.WF := by
  obtain ⟨hnone, hpar, rfl⟩ := osMkdir_ok fs fs1 p h
  have hp : p ≠ [] := by
    intro hnil
    rw [hnil] at hnone
    simp [FS.get] at hnone
  exact hwf.put p Node.dir hp hpar (Or.inl rfl)

/-- What `os.MkdirAll` gives when it succeeds: a well-formed tree in which the
path is a directory. -/
theorem osMkdirAllRev_ok (fs : FS) (hwf : fs.WF) :
    ∀ (rev : List String) (fs1 : FS), osMkdirAllRev fs rev = Except.ok fs1 →
      fs1.WF ∧ fs1.get rev.reverse = some Node.dir := by
  intro rev
  induction rev with
  | nil =>
    intro fs1 h
    simp only [osMkdirAllRev, Except.ok.injEq] at h
    subst h
    exact ⟨hwf, rfl⟩
  | cons c up ih =>
    intro fs1 h
    rw [osMkdirAllRev] at h
    split at h
    · rename_i hdir
      cases h
      exact ⟨hwf, hdir⟩
    · cases h
    · split at h
      · cases h
      · rename_i fsu hup
        obtain ⟨hwfu, _⟩ := ih fsu hup
        split at h
        · rename_i fs2 hmk
          cases h
          refine ⟨osMkdir_WF fsu fs1 _ hwfu hmk, ?_⟩
          obtain ⟨_, _, rfl⟩ := osMkdir_ok fsu fs1 _ hmk
          rw [FS.get_put _ _ _ _ (by simp), if_pos rfl]
        · split at h
          · rename_i hdir
            cases h
            exact ⟨hwfu, hdir⟩
          · cases h

theorem createDir_ok (mb : Mailbox) (fs fs1 : FS) (hwf : fs.WF)
    (h : mb.createDir fs = (none, fs1)) : fs1.WF ∧ fs1.get mb.path ≠ none := by
  unfold Mailbox.createDir at h
  split at h
  · rename_i n hstat
    simp only [Prod.mk.injEq, true_and] at h
    subst h
    refine ⟨hwf, ?_⟩
    unfold osStat at hstat
    split at hstat
    · rename_i hget
      rw [hget]
      simp
    · cases hstat
  · split at h
    · simp at h
    · rename_i fs2 hmk
      simp only [Prod.mk.injEq, true_and] at h
      subst h
      obtain ⟨hwf2, hget⟩ := osMkdirAllRev_ok fs hwf mb.path.reverse fs2 hmk
      rw [List.reverse_reverse] at hget
      exact ⟨hwf2, by rw [hget]; simp⟩

/-- A successful `writeIndex` of a mailbox with messages keeps the tree
well-formed and leaves the mailbox directory in place when the index lies
directly inside it. -/
theorem writeIndex_WF (g : Gob) (mb : Mailbox) (fs fs1 : FS) (hwf : fs.WF)
    (hne : mb.messages ≠ []) (hidx : mb.indexPath = mb.path ++ [indexFileName])
    (h : mb.writeIndex g fs = (none, fs1)) :
    fs1.WF ∧ fs1.get mb.path = some Node.dir := by
  obtain ⟨fsd, fsc, w, hcd, hcreate, _, hfs1⟩ := writeIndex_ok_of_ne_nil g mb fs fs1 hne h
  obtain ⟨hwfd, _⟩ := createDir_ok mb fs fsd hwf hcd
  obtain ⟨hpne, hnd, hpar, hfsc⟩ := osCreate_ok fsd fsc mb.indexPath hcreate
  have hdl : mb.indexPath.dropLast = mb.path := by rw [hidx, List.dropLast_concat]
  have hne2 : mb.path ≠ mb.indexPath := by
    rw [← hdl]
    exact dropLast_ne_self _ hpne
  have hwfc : fsc.WF := by
    rw [hfsc]
    exact hwfd.put _ _ hpne hpar (Or.inr hnd)
  have hparc : fsc.get mb.indexPath.dropLast = some Node.dir := by
    rw [hfsc, FS.get_put _ _ _ _ hpne, hdl, if_neg hne2, ← hdl]
    exact hpar
  constructor
  · rw [hfs1]
    apply hwfc.put _ _ hpne hparc
    right
    rw [hfsc, FS.get_put _ _ _ _ hpne, if_pos rfl]
    simp
  · rw [hfs1, FS.get_put _ _ _ _ hpne, if_neg hne2, ← hdl]
    exact hparc

/-! ## Enumerating the mailboxes -/

theorem leafLoop_eq (ds : Store) (l1 l2 : String) :
    ∀ (infos : List FileInfo) (acc : List Mailbox),
      leafLoop ds l1 l2 infos acc =
        acc ++ ((infos.filter (fun inf => inf.IsDir)).map (fun inf => inf.Name)).map
          (leafHandle ds l1 l2) := by
  intro infos
  induction infos with
  | nil => intro acc; simp [leafLoop]
  | cons inf rest ih =>
    intro acc
    rw [leafLoop]
    by_cases hd : inf.IsDir = true
    · simp only [hd, if_true, ih, List.filter_cons_of_pos, List.map_cons, List.append_assoc,
        List.singleton_append]
      simp [leafHandle]
    · have hf : inf.IsDir = false := by simpa using hd
      simp only [hf, Bool.false_eq_true, if_false, ih, List.filter_cons]

theorem ioutilReadDir_dir (fs : FS) (p : Path) (h : fs.get p = some Node.dir) :
    ioutilReadDir fs p =
      Except.ok ((fs.names p).map (fileInfo fs p) |>.insertionSort FileInfo.byName) := by
  simp [ioutilReadDir, readdirnames, h]

theorem fileInfo_isDir (fs : FS) (p : Path) (n : String) :
    (fileInfo fs p n).IsDir = true ↔ fs.get (p ++ [n]) = some Node.dir := by
  unfold fileInfo
  simp only
  split
  · rename_i h
    simp [h]
  · rename_i h
    simp only [Bool.false_eq_true, false_iff]
    exact fun hd => h hd

theorem mem_subdirNames (fs : FS) (p : Path) (n : String) (h : fs.get p = some Node.dir) :
    n ∈ subdirNames fs p ↔ fs.get (p ++ [n]) = some Node.dir := by
  unfold subdirNames
  rw [ioutilReadDir_dir fs p h]
  simp only [List.mem_map, List.mem_filter]
  constructor
  · rintro ⟨inf, ⟨hmem, hdir⟩, hname⟩
    have hmem2 := (List.perm_insertionSort FileInfo.byName _).mem_iff.mp hmem
    obtain ⟨m, _, rfl⟩ := List.mem_map.mp hmem2
    have : m = n := hname
    subst this
    exact (fileInfo_isDir fs p m).mp hdir
  · intro hget
    refine ⟨fileInfo fs p n, ⟨?_, (fileInfo_isDir fs p n).mpr hget⟩, rfl⟩
    apply (List.perm_insertionSort FileInfo.byName _).mem_iff.mpr
    exact List.mem_map.mpr ⟨n, (FS.mem_names fs p n).mpr (by rw [hget]; simp), rfl⟩

theorem FS.WF.nodup_names {fs : FS} (hwf : fs.WF) (p : Path) : (fs.names p).Nodup := by
  unfold FS.names
  apply List.Nodup.filterMap _ hwf.1
  intro a b n ha hb
  have key : ∀ q : Path, (n ∈ (match q.getLast? with
      | some m => if q.dropLast = p then some m else none
      | none => none)) → q = p ++ [n] := by
    intro q hq
    cases hl : q.getLast? with
    | none => simp [hl] at hq
    | some m =>
      simp only [hl] at hq
      by_cases hd : q.dropLast = p
      · simp only [hd, if_true, Option.mem_def, Option.some.injEq] at hq
        subst hq
        have hqne : q ≠ [] := by
          intro h
          simp [h] at hl
        have hlast : q.getLast hqne = m := by
          rw [List.getLast?_eq_getLast _ hqne] at hl
          exact Option.some.inj hl
        have := List.dropLast_append_getLast hqne
        rw [hd, hlast] at this
        exact this.symm
      · simp [hd] at hq
  rw [key a ha, key b hb]

theorem nodup_subdirNames (fs : FS) (hwf : fs.WF) (p : Path) : (subdirNames fs p).Nodup := by
  unfold subdirNames
  cases hr : ioutilReadDir fs p with
  | error e => simp
  | ok infos =>
    simp only
    have hperm : infos.Perm ((fs.names p).map (fileInfo fs p)) := by
      unfold ioutilReadDir at hr
      split at hr
      · cases hr
      · rename_i ns hns
        cases hr
        unfold readdirnames at hns
        split at hns
        · cases hns
        · cases hns
        · cases hns
          exact List.perm_insertionSort _ _
    have hnames : (infos.map (fun inf => inf.Name)).Nodup := by
      have h1 := (hperm.map (fun inf => inf.Name)).nodup_iff
      rw [h1, List.map_map]
      have : (fun inf => inf.Name) ∘ fileInfo fs p = id := by
        funext n
        rfl
      rw [this, List.map_id]
      exact hwf.nodup_names p
    exact hnames.sublist (List.Sublist.map _ (List.filter_sublist _))

theorem subdirNames_dir (fs : FS) (p : Path) (h : fs.get p = some Node.dir) :
    subdirNames fs p =
      (((fs.names p).map (fileInfo fs p) |>.insertionSort FileInfo.byName).filter
        (fun inf => inf.IsDir)).map (fun inf => inf.Name) := by
  unfold subdirNames
  rw [ioutilReadDir_dir fs p h]

theorem readDir_isDir (fs : FS) (p : Path) (inf : FileInfo)
    (hmem : inf ∈ ((fs.names p).map (fileInfo fs p) |>.insertionSort FileInfo.byName))
    (hdir : inf.IsDir = true) : fs.get (p ++ [inf.Name]) = some Node.dir := by
  have hmem2 := (List.perm_insertionSort FileInfo.byName _).mem_iff.mp hmem
  obtain ⟨m, _, rfl⟩ := List.mem_map.mp hmem2
  exact (fileInfo_isDir fs p m).mp hdir

theorem level2Loop_eq (ds : Store) (fs : FS) (l1 : String) :
    ∀ (infos2 : List FileInfo) (acc : List Mailbox),
      (∀ inf ∈ infos2, inf.IsDir = true →
        fs.get (ds.mailPath ++ [l1, inf.Name]) = some Node.dir) →
      level2Loop ds fs l1 infos2 acc =
        Except.ok (acc ++
          ((infos2.filter (fun inf => inf.IsDir)).map (fun inf => inf.Name)).flatMap (fun l2 =>
            (subdirNames fs (ds.mailPath ++ [l1, l2])).map (leafHandle ds l1 l2))) := by
  intro infos2
  induction infos2 with
  | nil => intro acc _; simp [level2Loop]
  | cons inf rest ih =>
    intro acc hall
    have hrest : ∀ x ∈ rest, x.IsDir = true →
        fs.get (ds.mailPath ++ [l1, x.Name]) = some Node.dir :=
      fun x hx => hall x (List.mem_cons_of_mem _ hx)
    rw [level2Loop]
    by_cases hd : inf.IsDir = true
    · have hget := hall inf (List.mem_cons_self _ _) hd
      simp only [hd, if_true, ioutilReadDir_dir fs _ hget, leafLoop_eq, ih _ hrest,
        List.filter_cons_of_pos, List.map_cons, List.flatMap_cons, subdirNames_dir fs _ hget,
        List.append_assoc]
    · have hf : inf.IsDir = false := by simpa using hd
      simp only [hf, Bool.false_eq_true, if_false, ih _ hrest, List.filter_cons]

theorem level1Loop_eq (ds : Store) (fs : FS) :
    ∀ (infos1 : List FileInfo) (acc : List Mailbox),
      (∀ inf ∈ infos1, inf.IsDir = true →
        fs.get (ds.mailPath ++ [inf.Name]) = some Node.dir) →
      level1Loop ds fs infos1 acc =
        Except.ok (acc ++
          ((infos1.filter (fun inf => inf.IsDir)).map (fun inf => inf.Name)).flatMap (fun l1 =>
            (subdirNames fs (ds.mailPath ++ [l1])).flatMap (fun l2 =>
              (subdirNames fs (ds.mailPath ++ [l1, l2])).map (leafHandle ds l1 l2)))) := by
  intro infos1
  induction infos1 with
  | nil => intro acc _; simp [level1Loop]
  | cons inf rest ih =>
    intro acc hall
    have hrest : ∀ x ∈ rest, x.IsDir = true →
        fs.get (ds.mailPath ++ [x.Name]) = some Node.dir :=
      fun x hx => hall x (List.mem_cons_of_mem _ hx)
    rw [level1Loop]
    by_cases hd : inf.IsDir = true
    · have hget := hall inf (List.mem_cons_self _ _) hd
      have h2 : ∀ x ∈ ((fs.names (ds.mailPath ++ [inf.Name])).map
            (fileInfo fs (ds.mailPath ++ [inf.Name])) |>.insertionSort FileInfo.byName),
          x.IsDir = true → fs.get (ds.mailPath ++ [inf.Name, x.Name]) = some Node.dir := by
        intro x hx hxd
        have := readDir_isDir fs _ x hx hxd
        simpa using this
      simp only [hd, if_true, ioutilReadDir_dir fs _ hget, level2Loop_eq ds fs inf.Name _ _ h2,
        ih _ hrest, List.filter_cons_of_pos, List.map_cons, List.flatMap_cons,
        subdirNames_dir fs _ hget, List.append_assoc]
    · have hf : inf.IsDir = false := by simpa using hd
      simp only [hf, Bool.false_eq_true, if_false, ih _ hrest, List.filter_cons]

/-- On a tree whose mail directory can be listed `AllMailboxes` succeeds and
returns the mailboxes of the tree. -/
theorem allMailboxes_eq_enumerate (ds : Store) (fs : FS)
    (hroot : fs.get ds.mailPath = some Node.dir) :
    ds.AllMailboxes fs = Except.ok (enumerate ds fs) := by
  have h1 : ∀ x ∈ ((fs.names ds.mailPath).map (fileInfo fs ds.mailPath) |>.insertionSort
        FileInfo.byName),
      x.IsDir = true → fs.get (ds.mailPath ++ [x.Name]) = some Node.dir :=
    fun x hx hxd => readDir_isDir fs _ x hx hxd
  unfold Store.AllMailboxes enumerate
  rw [ioutilReadDir_dir fs _ hroot]
  simp only [level1Loop_eq ds fs _ _ h1, List.nil_append, subdirNames_dir fs _ hroot]

theorem mem_enumerate (ds : Store) (fs : FS) (hroot : fs.get ds.mailPath = some Node.dir)
    (mb : Mailbox) :
    mb ∈ enumerate ds fs ↔
      ∃ l1 l2 leaf, fs.get (ds.mailPath ++ [l1]) = some Node.dir ∧
        fs.get (ds.mailPath ++ [l1, l2]) = some Node.dir ∧
        fs.get (ds.mailPath ++ [l1, l2, leaf]) = some Node.dir ∧
        mb = leafHandle ds l1 l2 leaf := by
  have e2 : ∀ l1 l2 : String, (ds.mailPath ++ [l1]) ++ [l2] = ds.mailPath ++ [l1, l2] :=
    fun l1 l2 => by simp
  have e3 : ∀ l1 l2 l3 : String, (ds.mailPath ++ [l1, l2]) ++ [l3] = ds.mailPath ++ [l1, l2, l3] :=
    fun l1 l2 l3 => by simp
  unfold enumerate
  simp only [List.mem_flatMap, List.mem_map]
  constructor
  · rintro ⟨l1, h1, l2, h2, leaf, h3, rfl⟩
    have g1 := (mem_subdirNames fs _ l1 hroot).mp h1
    have g2 := (mem_subdirNames fs _ l2 g1).mp h2
    rw [e2] at g2
    have g3 := (mem_subdirNames fs _ leaf g2).mp h3
    rw [e3] at g3
    exact ⟨l1, l2, leaf, g1, g2, g3, rfl⟩
  · rintro ⟨l1, l2, leaf, g1, g2, g3, rfl⟩
    refine ⟨l1, (mem_subdirNames fs _ l1 hroot).mpr g1, l2, ?_, leaf, ?_, rfl⟩
    · apply (mem_subdirNames fs _ l2 g1).mpr
      rw [e2]
      exact g2
    · apply (mem_subdirNames fs _ leaf g2).mpr
      rw [e3]
      exact g3

theorem nodup_flatMap_of_key {α β γ : Type} (S : List α) (f : α → List β) (key : β → γ)
    (tag : α → γ) (htag : ∀ a ∈ S, ∀ b ∈ S, tag a = tag b → a = b)
    (hS : S.Nodup) (hf : ∀ a ∈ S, (f a).Nodup)
    (hkey : ∀ a ∈ S, ∀ b ∈ f a, key b = tag a) : (S.flatMap f).Nodup := by
  rw [List.nodup_flatMap]
  refine ⟨hf, ?_⟩
  have hp : List.Pairwise (fun a b => a ≠ b) S := hS
  refine List.Pairwise.imp_of_mem ?_ hp
  intro a b ha hb hne
  rw [Function.onFun, List.disjoint_left]
  intro x hxa hxb
  exact hne (htag a ha b hb ((hkey a ha x hxa).symm.trans (hkey b hb x hxb)))

theorem nodup_enumerate_paths (ds : Store) (fs : FS) (hwf : fs.WF) :
    ((enumerate ds fs).map (fun mb => mb.path)).Nodup := by
  unfold enumerate
  simp only [List.map_flatMap, List.map_map]
  apply nodup_flatMap_of_key _ _ (fun p : Path => (p.drop ds.mailPath.length)[0]?) some
    (fun a _ b _ h => Option.some.inj h) (nodup_subdirNames fs hwf _)
  · intro l1 _
    apply nodup_flatMap_of_key _ _ (fun p : Path => (p.drop ds.mailPath.length)[1]?) some
      (fun a _ b _ h => Option.some.inj h) (nodup_subdirNames fs hwf _)
    · intro l2 _
      apply List.Nodup.map _ (nodup_subdirNames fs hwf _)
      intro a b hab
      simpa [leafHandle] using hab
    · intro l2 _ p hp
      obtain ⟨leaf, _, rfl⟩ := List.mem_map.mp hp
      simp [leafHandle]
  · intro l1 _ p hp
    obtain ⟨l2, _, hp2⟩ := List.mem_flatMap.mp hp
    obtain ⟨leaf, _, rfl⟩ := List.mem_map.mp hp2
    simp [leafHandle]

theorem mailboxFor_resolved (su : Stringutil) (ds : Store) (address : String) (mb : Mailbox)
    (h : ds.MailboxFor su address = Except.ok mb) :
    mb.store = ds ∧ mb.Resolved := by
  unfold Store.MailboxFor at h
  cases hp : su.ParseMailboxName address with
  | error e =>
    rw [hp] at h
    cases h
  | ok name =>
    rw [hp] at h
    simp only at h
    cases h3 : goSlice (su.HashMailboxName name) 0 3 with
    | none =>
      rw [h3] at h
      cases h
    | some s1 =>
      rw [h3] at h
      simp only at h
      cases h6 : goSlice (su.HashMailboxName name) 0 6 with
      | none =>
        rw [h6] at h
        cases h
      | some s2 =>
        rw [h6] at h
        simp only [Except.ok.injEq] at h
        subst h
        exact ⟨rfl, ⟨s1, s2, rfl⟩, rfl⟩

theorem leafHandle_resolved (ds : Store) (l1 l2 leaf : String) :
    (leafHandle ds l1 l2 leaf).Resolved :=
  ⟨⟨l1, l2, rfl⟩, rfl⟩

theorem filter_path_length (l : List Mailbox) (p : Path)
    (hnd : (l.map (fun mb => mb.path)).Nodup) (hmem : p ∈ l.map (fun mb => mb.path)) :
    (l.filter (fun mb => decide (mb.path = p))).length = 1 := by
  induction l with
  | nil => simp at hmem
  | cons m rest ih =>
    simp only [List.map_cons, List.nodup_cons] at hnd
    by_cases hm : m.path = p
    · have hnone : rest.filter (fun mb => decide (mb.path = p)) = [] := by
        rw [List.filter_eq_nil_iff]
        intro x hx hxp
        simp only [decide_eq_true_eq] at hxp
        apply hnd.1
        rw [hm, ← hxp]
        exact List.mem_map.mpr ⟨x, hx, rfl⟩
      simp [List.filter_cons, hm, hnone]
    · have hrest : p ∈ rest.map (fun mb => mb.path) := by
        simp only [List.map_cons, List.mem_cons] at hmem
        rcases hmem with h | h
        · exact absurd h.symm hm
        · exact h
      simp only [List.filter_cons, hm, decide_False, Bool.false_eq_true, if_false]
      exact ih hnd.2 hrest

/-- The paths of the handles `AllMailboxes` returns on a well-formed tree. -/
theorem allMailboxes_paths (ds : Store) (fs : FS) (hwf : fs.WF)
    (hroot : fs.get ds.mailPath = some Node.dir) :
    ds.AllMailboxes fs = Except.ok (enumerate ds fs) ∧
    (∀ l1 l2 leaf, fs.get (ds.mailPath ++ [l1]) = some Node.dir →
      fs.get (ds.mailPath ++ [l1, l2]) = some Node.dir →
      fs.get (ds.mailPath ++ [l1, l2, leaf]) = some Node.dir →
      ((enumerate ds fs).filter
        (fun mb => decide (mb.path = ds.mailPath ++ [l1, l2, leaf]))).length = 1) := by
  refine ⟨allMailboxes_eq_enumerate ds fs hroot, ?_⟩
  intro l1 l2 leaf h1 h2 h3
  apply filter_path_length _ _ (nodup_enumerate_paths ds fs hwf)
  apply List.mem_map.mpr
  exact ⟨leafHandle ds l1 l2 leaf,
    (mem_enumerate ds fs hroot _).mpr ⟨l1, l2, leaf, h1, h2, h3, rfl⟩, rfl⟩

/-- C9. Enumeration finds every persisted mailbox exactly once.  On a
well-formed tree whose mail directory exists, `AllMailboxes` succeeds; for
every directory `mailRoot/l1/l2/leaf` whose two upper levels are directories
the result holds exactly one handle with that path; and every handle of the
result is the handle of such a directory, with path `mailRoot/l1/l2/leaf`,
index path `path/index.gob` and the index not loaded.  Consequently, after
`MailboxFor` resolved an address and a non-empty index was written for the
handle, `AllMailboxes` succeeds and returns exactly one handle whose path is
the path `MailboxFor` gave. -/
theorem allMailboxes_complete (g : Gob) (su : Stringutil) (ds : Store) (fs : FS)
    (hwf : fs.WF) :
    (fs.get ds.mailPath = some Node.dir →
      ∃ mbs, ds.AllMailboxes fs = Except.ok mbs ∧
        (∀ l1 l2 leaf, fs.get (ds.mailPath ++ [l1]) = some Node.dir →
          fs.get (ds.mailPath ++ [l1, l2]) = some Node.dir →
          fs.get (ds.mailPath ++ [l1, l2, leaf]) = some Node.dir →
          (mbs.filter (fun mb => decide (mb.path = ds.mailPath ++ [l1, l2, leaf]))).length = 1) ∧
        (∀ mb ∈ mbs, ∃ l1 l2 leaf,
          fs.get (ds.mailPath ++ [l1]) = some Node.dir ∧
          fs.get (ds.mailPath ++ [l1, l2]) = some Node.dir ∧
          fs.get (ds.mailPath ++ [l1, l2, leaf]) = some Node.dir ∧
          mb.path = ds.mailPath ++ [l1, l2, leaf] ∧
          mb.indexPath = mb.path ++ [indexFileName] ∧
          mb.indexLoaded = false)) ∧
    (∀ (address : String) (mb : Mailbox) (msgs : List Message) (fs1 : FS),
      ds.MailboxFor su address = Except.ok mb → msgs ≠ [] →
      Mailbox.writeIndex g { mb with messages := msgs } fs = (none, fs1) →
      ∃ mbs, ds.AllMailboxes fs1 = Except.ok mbs ∧
        (mbs.filter (fun m => decide (m.path = mb.path))).length = 1) := by
  constructor
  · intro hroot
    obtain ⟨heq, hcount⟩ := allMailboxes_paths ds fs hwf hroot
    refine ⟨enumerate ds fs, heq, hcount, ?_⟩
    intro mb hmb
    obtain ⟨l1, l2, leaf, h1, h2, h3, rfl⟩ := (mem_enumerate ds fs hroot mb).mp hmb
    exact ⟨l1, l2, leaf, h1, h2, h3, rfl, rfl, rfl⟩
  · intro address mb msgs fs1 hfor hne hwrite
    obtain ⟨hstore, ⟨l1, l2, hpath⟩, hidx⟩ := mailboxFor_resolved su ds address mb hfor
    rw [hstore] at hpath
    obtain ⟨hwf1, hleaf⟩ := writeIndex_WF g { mb with messages := msgs } fs fs1 hwf hne hidx
      hwrite
    simp only at hleaf
    rw [hpath] at hleaf
    have h2 : fs1.get (ds.mailPath ++ [l1, l2]) = some Node.dir := by
      have := hwf1.parent_dir (ds.mailPath ++ [l1, l2, mb.dirName]) (by simp)
        (by rw [hleaf]; simp)
      rwa [dropLast_three] at this
    have h1 : fs1.get (ds.mailPath ++ [l1]) = some Node.dir := by
      have := hwf1.parent_dir (ds.mailPath ++ [l1, l2]) (by simp) (by rw [h2]; simp)
      rwa [dropLast_two] at this
    have h0 : fs1.get ds.mailPath = some Node.dir := by
      have := hwf1.parent_dir (ds.mailPath ++ [l1]) (by simp) (by rw [h1]; simp)
      rwa [List.dropLast_concat] at this
    obtain ⟨heq, hcount⟩ := allMailboxes_paths ds fs1 hwf1 h0
    refine ⟨enumerate ds fs1, heq, ?_⟩
    rw [hpath]
    exact hcount l1 l2 mb.dirName h1 h2 hleaf

/-- Resolving the address of bob, writing three records on an empty disk and
enumerating: exactly one handle has the resolved path.  On the disk with two
mailboxes the enumeration holds exactly one handle for the second one. -/
theorem allMailboxes_complete_witness :
    (∃ mbs, sampleStore.AllMailboxes (writtenDisk [0, 1, 2]) = Except.ok mbs ∧
      (mbs.filter (fun m => decide (m.path = samplePath))).length = 1) ∧
    (∃ mbs, sampleStore.AllMailboxes twoBoxDisk = Except.ok mbs ∧
      (mbs.filter (fun m => decide
        (m.path = ["data", "mail", "abc", "abc999", "abc9990000"]))).length = 1) :=
  ⟨(allMailboxes_complete sampleGob sampleStringutil sampleStore [] (by decide)).2
      "bob@example.com" (sampleMailbox false [])
      [sampleMessage "m1", sampleMessage "m2", sampleMessage "m3"] (writtenDisk [0, 1, 2])
      rfl (by simp) (by decide),
   match (allMailboxes_complete sampleGob sampleStringutil sampleStore twoBoxDisk
      (by decide)).1 (by decide) with
   | ⟨mbs, hall, hone, _⟩ =>
     ⟨mbs, hall, hone "abc" "abc999" "abc9990000" (by decide) (by decide) (by decide)⟩⟩

end FStore
